import Mathlib

/-!
# Verification of the ToSidewalk street-network engine

Shallow embedding of `src/ToSidewalk/network.py` and `src/ToSidewalk/nodes.py`.

Modelling conventions:

* Node ids and way ids are `Nat` (the Python code uses strings; only equality
  and membership tests are ever performed on ids, so any infinite type with
  decidable equality is a faithful model).
* The Python `Nodes`/`Streets` stores are dictionaries keyed by id; they are
  modelled as association lists with unique keys (`alist_get` / `alist_set` /
  `alist_erase` mirror `d[k]`-lookup, `d[k] = v` and `del d[k]`).
* Coordinates are latitude/longitude floats in Python.  The computations that
  this development evaluates exactly (vector differences, dot products and
  their comparisons in `segment_parallel_streets`) use only ring operations
  and order comparisons, so they are modelled over `ℤ`; on integral test
  coordinates the float computation is exact and agrees with the model.
  The transcendental bearing computations (`math.atan2`, `math.degrees`) are
  modelled over `ℝ`.
* A Python run-time error (KeyError escaping a lookup, AttributeError from
  calling a method on `None`, IndexError / ValueError from list access) is
  modelled by `Option`: `none` means the operation raises.
* `ways.py` is not part of the sources; the `Street`/`Streets` classes it
  defines are modelled from the spec where needed, and each such definition
  carries a note.
-/

namespace ToSidewalk

/-- Node record, from nodes.py lines 7-21: an id, a position, the list
`way_ids` of incident way ids (a Python list: order and multiplicity are
significant), and the intersection-cardinality threshold (default 2). -/
structure Node where
  id : Nat
  lat : ℤ
  lng : ℤ
  way_ids : List Nat
  min_intersection_cardinality : Nat := 2
deriving DecidableEq

/-- Modelled from the spec: the Street class of the missing ways.py.
Spec section 3: a way has an identity, an ordered sequence `nids` of node
ids, and a type tag (road class or the synthesized "footway" marker; the
source stores it in the attribute `type`, here `wtype`). -/
structure Way where
  id : Nat
  nids : List Nat
  wtype : Option String
deriving DecidableEq

/-- The Network graph store, from network.py lines 16-22: a node store and a
way store.  Modelled from the spec (section 2, Graph Store): both stores are
id-keyed dictionaries, here association lists with unique keys. -/
structure Network where
  nodes : List (Nat × Node)
  ways : List (Nat × Way)
deriving DecidableEq

/-- Dictionary lookup `d[k]` on an association list (first matching key). -/
def alist_get {α : Type} (k : Nat) : List (Nat × α) → Option α
  | [] => none
  | p :: t => if p.1 = k then some p.2 else alist_get k t

/-- Dictionary write `d[k] = v`: replace the entry in place if the key is
present, append otherwise. -/
def alist_set {α : Type} (k : Nat) (v : α) : List (Nat × α) → List (Nat × α)
  | [] => [(k, v)]
  | p :: t => if p.1 = k then (k, v) :: t else p :: alist_set k v t

/-- Dictionary delete `del d[k]`. -/
def alist_erase {α : Type} (k : Nat) : List (Nat × α) → List (Nat × α)
  | [] => []
  | p :: t => if p.1 = k then alist_erase k t else p :: alist_erase k t

theorem alist_get_set_self {α : Type} (k : Nat) (v : α) (l : List (Nat × α)) :
    alist_get k (alist_set k v l) = some v := by
  induction l with
  | nil => simp [alist_get, alist_set]
  | cons p t ih =>
    by_cases hp : p.1 = k <;> simp [alist_get, alist_set, hp, ih]

theorem alist_get_set_ne {α : Type} {k k' : Nat} (v : α) (l : List (Nat × α))
    (h : k' ≠ k) : alist_get k' (alist_set k v l) = alist_get k' l := by
  induction l with
  | nil => simp [alist_get, alist_set, Ne.symm h]
  | cons p t ih =>
    by_cases hp : p.1 = k
    · simp [alist_get, alist_set, hp, Ne.symm h, ih]
    · by_cases hq : p.1 = k' <;> simp [alist_get, alist_set, hp, hq, h, ih]

theorem alist_get_erase_self {α : Type} (k : Nat) (l : List (Nat × α)) :
    alist_get k (alist_erase k l) = none := by
  induction l with
  | nil => simp [alist_get, alist_erase]
  | cons p t ih =>
    by_cases hp : p.1 = k <;> simp [alist_get, alist_erase, hp, ih]

theorem alist_get_erase_ne {α : Type} {k k' : Nat} (l : List (Nat × α))
    (h : k' ≠ k) : alist_get k' (alist_erase k l) = alist_get k' l := by
  induction l with
  | nil => simp [alist_erase]
  | cons p t ih =>
    by_cases hp : p.1 = k
    · simp [alist_get, alist_erase, hp, Ne.symm h, ih]
    · by_cases hq : p.1 = k' <;> simp [alist_get, alist_erase, hp, hq, h, ih]

theorem alist_set_keys_of_get_isSome {α : Type} {k : Nat} (v : α) {l : List (Nat × α)}
    (h : (alist_get k l).isSome) :
    (alist_set k v l).map Prod.fst = l.map Prod.fst := by
  induction l with
  | nil => simp [alist_get] at h
  | cons p t ih =>
    by_cases hp : p.1 = k
    · simp [alist_set, hp]
    · simp [alist_get, hp] at h
      simp [alist_set, hp, ih h]

theorem alist_set_keys_of_get_eq_none {α : Type} {k : Nat} (v : α) {l : List (Nat × α)}
    (h : alist_get k l = none) :
    (alist_set k v l).map Prod.fst = l.map Prod.fst ++ [k] := by
  induction l with
  | nil => simp [alist_set]
  | cons p t ih =>
    by_cases hp : p.1 = k
    · simp [alist_get, hp] at h
    · simp [alist_get, hp] at h
      simp [alist_set, hp, ih h]

theorem alist_erase_keys_sublist {α : Type} (k : Nat) (l : List (Nat × α)) :
    ((alist_erase k l).map Prod.fst).Sublist (l.map Prod.fst) := by
  induction l with
  | nil => simp [alist_erase]
  | cons p t ih =>
    by_cases hp : p.1 = k
    · simp only [alist_erase, hp, if_true, List.map_cons]
      exact ih.trans (List.sublist_cons_self _ _)
    · simpa [alist_erase, hp] using ih

theorem alist_get_isSome_iff_mem_keys {α : Type} {k : Nat} {l : List (Nat × α)} :
    (alist_get k l).isSome ↔ k ∈ l.map Prod.fst := by
  induction l with
  | nil => simp [alist_get]
  | cons p t ih =>
    by_cases hp : p.1 = k
    · simp [alist_get, hp]
    · simpa [alist_get, hp, Ne.symm hp] using ih

theorem alist_get_mem {α : Type} {k : Nat} {v : α} {l : List (Nat × α)}
    (h : alist_get k l = some v) : (k, v) ∈ l := by
  induction l with
  | nil => simp [alist_get] at h
  | cons p t ih =>
    by_cases hp : p.1 = k
    · simp only [alist_get, hp, if_true, Option.some.injEq] at h
      have hpv : p = (k, v) := by
        cases p
        simp_all
      exact hpv ▸ List.mem_cons_self _ _
    · simp only [alist_get, hp, if_false] at h
      exact List.mem_cons_of_mem _ (ih h)

theorem mem_alist_get_of_keys_nodup {α : Type} {p : Nat × α} {l : List (Nat × α)}
    (hk : (l.map Prod.fst).Nodup) (h : p ∈ l) : alist_get p.1 l = some p.2 := by
  induction l with
  | nil => simp at h
  | cons q t ih =>
    rcases List.mem_cons.mp h with h | h
    · simp [alist_get, h]
    · have hne : q.1 ≠ p.1 := by
        intro he
        have : p.1 ∈ t.map Prod.fst := List.mem_map_of_mem Prod.fst h
        rw [List.map_cons, List.nodup_cons] at hk
        exact hk.1 (he ▸ this)
      have hk' : (t.map Prod.fst).Nodup := by
        rw [List.map_cons, List.nodup_cons] at hk
        exact hk.2
      simp [alist_get, hne, ih hk' h]

/-! ## Graph store operations (network.py, nodes.py) -/

/-- Node.append_way, nodes.py lines 34-35: `self.way_ids.append(wid)`.
A plain list append: duplicates are possible. -/
def append_way (n : Node) (wid : Nat) : Node :=
  { n with way_ids := n.way_ids ++ [wid] }

/-- Node.remove_way_id, nodes.py lines 71-74: remove the first occurrence of
`wid` from `way_ids` if present, otherwise do nothing (the Python code guards
`if wid in self.way_ids`, which is exactly `List.erase`). -/
def remove_way_id (n : Node) (wid : Nat) : Node :=
  { n with way_ids := n.way_ids.erase wid }

/-- Node.is_intersection, nodes.py lines 68-69. -/
def is_intersection (n : Node) : Bool :=
  n.min_intersection_cardinality ≤ n.way_ids.length

/-- The node-update loop shape shared by Network.add_way (lines 58-59) and
Network.join_ways (lines 132-138): look each node id up in the node store and
write back `f` of it.  `self.nodes.get` returns `None` for a missing id
(nodes.py lines 101-105) and the subsequent method call then raises, which is
modelled by `none`. -/
def update_nodes (f : Node → Node) : List Nat → Network → Option Network
  | [], g => some g
  | nid :: rest, g =>
    match alist_get nid g.nodes with
    | none => none
    | some n => update_nodes f rest { g with nodes := alist_set nid (f n) g.nodes }

/-- Network.add_node, network.py lines 34-40 (Nodes.add, nodes.py 93-96). -/
def add_node (g : Network) (n : Node) : Network :=
  { g with nodes := alist_set n.id n g.nodes }

/-- Network.add_way, network.py lines 51-59: store the way
(Streets.add is modelled from the spec as the dictionary write of the Graph
Store), then append `way.id` to `way_ids` of every node in `way.nids`. -/
def add_way (g : Network) (w : Way) : Option Network :=
  update_nodes (fun n => append_way n w.id) w.nids { g with ways := alist_set w.id w g.ways }

/-- Network.join_ways, network.py lines 120-143.  The body looks up way 2
(Streets.get is modelled from the spec as the Graph Store lookup; on a missing
id it raises KeyError, which line 141 catches: the operation logs and skips).
For each node of way 2 it appends `way_id_1` and removes `way_id_2` from the
node's incident list, then deletes way 2.  Note: `way_id_1` is never looked
up, and way 1's node sequence is not touched (the docstring calls this a
relabeling).  A missing node raises AttributeError, which `except KeyError`
does not catch: modelled by `none`. -/
def join_ways (g : Network) (wid1 wid2 : Nat) : Option Network :=
  match alist_get wid2 g.ways with
  | none => some g
  | some way2 =>
    (update_nodes (fun n => remove_way_id (append_way n wid1) wid2) way2.nids g).map
      (fun g' => { g' with ways := alist_erase wid2 g'.ways })

/-- The node loop of Network.remove_way, network.py lines 111-117: detach
`way_id` from each referenced node's incident list and delete the node if the
list becomes empty. -/
def remove_way_nodes (wid : Nat) : List Nat → Network → Option Network
  | [], g => some g
  | nid :: rest, g =>
    match alist_get nid g.nodes with
    | none => none
    | some n =>
      let n' := remove_way_id n wid
      if n'.way_ids.length = 0 then
        remove_way_nodes wid rest { g with nodes := alist_erase nid g.nodes }
      else
        remove_way_nodes wid rest { g with nodes := alist_set nid n' g.nodes }

/-- Network.remove_way, network.py lines 103-118: look the way up, run the
node loop, then delete the way from the way store (Streets.remove is modelled
from the spec as the dictionary delete of the Graph Store; the unguarded
lookup of a missing way id raises, modelled by `none`). -/
def remove_way (g : Network) (wid : Nat) : Option Network :=
  match alist_get wid g.ways with
  | none => none
  | some way =>
    (remove_way_nodes wid way.nids g).map
      (fun g' => { g' with ways := alist_erase wid g'.ways })

/-! ## The incident-way invariant (spec section 3, invariant 2) -/

/-- The list of ids of ways whose node sequence contains `nid`. -/
def ways_containing (g : Network) (nid : Nat) : List Nat :=
  (g.ways.filter (fun p => p.2.nids.contains nid)).map Prod.fst

/-- Invariant 2 of the spec together with the no-duplicates reading of
"incident-way set": every node's `way_ids` list is duplicate-free and holds
exactly the ids of the ways whose node sequence contains the node's key. -/
def InvIncident (g : Network) : Prop :=
  ∀ p ∈ g.nodes, p.2.way_ids.Nodup ∧
    (∀ wid ∈ p.2.way_ids, wid ∈ ways_containing g p.1) ∧
    (∀ wid ∈ ways_containing g p.1, wid ∈ p.2.way_ids)

instance (g : Network) : Decidable (InvIncident g) := by
  unfold InvIncident
  infer_instance

/-- Unique node keys and unique way keys (spec section 3, invariant 4). -/
def KeysOK (g : Network) : Prop :=
  (g.nodes.map Prod.fst).Nodup ∧ (g.ways.map Prod.fst).Nodup

instance (g : Network) : Decidable (KeysOK g) := by
  unfold KeysOK
  infer_instance

/-- Holds when an optional computation succeeded and its result satisfies
`p`; a raising (`none`) computation never satisfies it. -/
def option_holds {α : Type} (p : α → Prop) : Option α → Prop
  | none => False
  | some a => p a

instance {α : Type} (p : α → Prop) [DecidablePred p] (o : Option α) :
    Decidable (option_holds p o) :=
  match o with
  | none => isFalse (fun h => h)
  | some a => if h : p a then isTrue h else isFalse h

theorem option_holds_of_eq_some {α : Type} {p : α → Prop} {o : Option α} {a : α}
    (ho : o = some a) (h : p a) : option_holds p o := by
  rw [ho]
  exact h

theorem option_holds_elim {α : Type} {p : α → Prop} {o : Option α}
    (h : option_holds p o) : ∃ a, o = some a ∧ p a := by
  cases o with
  | none => exact absurd h (fun h => h)
  | some a => exact ⟨a, rfl, h⟩

theorem alist_set_of_get_eq_none {α : Type} {k : Nat} (v : α) {l : List (Nat × α)}
    (h : alist_get k l = none) : alist_set k v l = l ++ [(k, v)] := by
  induction l with
  | nil => simp [alist_set]
  | cons p t ih =>
    by_cases hp : p.1 = k
    · simp [alist_get, hp] at h
    · simp only [alist_get, hp, if_false] at h
      simp [alist_set, hp, ih h]

theorem mem_alist_erase_iff {α : Type} {k : Nat} {p : Nat × α} {l : List (Nat × α)} :
    p ∈ alist_erase k l ↔ p ∈ l ∧ p.1 ≠ k := by
  induction l with
  | nil => simp [alist_erase]
  | cons q t ih =>
    by_cases hq : q.1 = k
    · rw [alist_erase, if_pos hq, ih, List.mem_cons]
      constructor
      · exact fun ⟨hm, hne⟩ => ⟨Or.inr hm, hne⟩
      · rintro ⟨(rfl | hm), hne⟩
        · exact absurd hq hne
        · exact ⟨hm, hne⟩
    · rw [alist_erase, if_neg hq, List.mem_cons, List.mem_cons]
      constructor
      · rintro (rfl | hm)
        · exact ⟨Or.inl rfl, hq⟩
        · exact ⟨Or.inr (ih.mp hm).1, (ih.mp hm).2⟩
      · rintro ⟨(rfl | hm), hne⟩
        · exact Or.inl rfl
        · exact Or.inr (ih.mpr ⟨hm, hne⟩)

theorem mem_ways_containing_iff {g : Network} {nid y : Nat} :
    y ∈ ways_containing g nid ↔ ∃ p ∈ g.ways, p.1 = y ∧ nid ∈ p.2.nids := by
  unfold ways_containing
  simp only [List.mem_map, List.mem_filter]
  constructor
  · rintro ⟨p, ⟨hm, hc⟩, rfl⟩
    exact ⟨p, hm, rfl, by simpa using hc⟩
  · rintro ⟨p, hm, rfl, hc⟩
    exact ⟨p, ⟨hm, by simpa using hc⟩, rfl⟩

theorem ways_containing_subset_keys {g : Network} {nid y : Nat}
    (h : y ∈ ways_containing g nid) : y ∈ g.ways.map Prod.fst := by
  rcases mem_ways_containing_iff.mp h with ⟨p, hm, rfl, _⟩
  exact List.mem_map_of_mem Prod.fst hm

theorem nodup_erase_eq_nil_iff {l : List Nat} {a : Nat} (h : l.Nodup) :
    l.erase a = [] ↔ ∀ y ∈ l, y = a := by
  constructor
  · intro he y hy
    by_contra hne
    have : y ∈ l.erase a := (List.Nodup.mem_erase_iff h).mpr ⟨hne, hy⟩
    simp [he] at this
  · intro hall
    match l, h with
    | [], _ => simp
    | [x], _ =>
      have := hall x (by simp)
      simp [this, List.erase_cons]
    | x :: y :: t, h =>
      have hx := hall x (by simp)
      have hy := hall y (by simp)
      rw [List.nodup_cons] at h
      exact absurd (hx ▸ hy ▸ List.mem_cons_self y t : x ∈ y :: t) h.1

/-- Characterization of the node-update loop: on duplicate-free node ids that
are all present, it succeeds, leaves the way store and the node keys intact,
applies `f` exactly once to each listed node and touches no other node. -/
theorem update_nodes_spec (f : Node → Node) :
    ∀ (nids : List Nat) (g : Network), nids.Nodup →
    (∀ nid ∈ nids, (alist_get nid g.nodes).isSome) →
    option_holds (fun g' =>
      g'.ways = g.ways ∧
      g'.nodes.map Prod.fst = g.nodes.map Prod.fst ∧
      (∀ nid, nid ∉ nids → alist_get nid g'.nodes = alist_get nid g.nodes) ∧
      (∀ nid ∈ nids, alist_get nid g'.nodes = (alist_get nid g.nodes).map f))
      (update_nodes f nids g) := by
  intro nids
  induction nids with
  | nil =>
    intro g _ _
    exact ⟨rfl, rfl, fun _ _ => rfl, by simp⟩
  | cons nid rest ih =>
    intro g hnd hpres
    obtain ⟨n, hn⟩ : ∃ n, alist_get nid g.nodes = some n := by
      have := hpres nid (by simp)
      exact Option.isSome_iff_exists.mp this
    rw [List.nodup_cons] at hnd
    set g1 : Network := { g with nodes := alist_set nid (f n) g.nodes } with hg1
    have hget1 : ∀ nid', nid' ≠ nid → alist_get nid' g1.nodes = alist_get nid' g.nodes :=
      fun nid' hne => alist_get_set_ne (f n) g.nodes hne
    have hget1self : alist_get nid g1.nodes = some (f n) := alist_get_set_self nid (f n) g.nodes
    have hpres1 : ∀ nid' ∈ rest, (alist_get nid' g1.nodes).isSome := by
      intro nid' hm
      by_cases hne : nid' = nid
      · rw [hne, hget1self]
        rfl
      · rw [hget1 nid' hne]
        exact hpres nid' (by simp [hm])
    have hkeys1 : g1.nodes.map Prod.fst = g.nodes.map Prod.fst :=
      alist_set_keys_of_get_isSome (f n) (by rw [hn]; rfl)
    have hrec := ih g1 hnd.2 hpres1
    rw [update_nodes, hn]
    rcases option_holds_elim hrec with ⟨g', hg', hP⟩
    refine option_holds_of_eq_some hg' ?_
    obtain ⟨hw, hk, hout, hin⟩ := hP
    refine ⟨hw, hk.trans hkeys1, ?_, ?_⟩
    · intro nid' hnm
      rw [List.mem_cons] at hnm
      push_neg at hnm
      rw [hout nid' hnm.2, hget1 nid' hnm.1]
    · intro nid' hm
      rcases List.mem_cons.mp hm with rfl | hm
      · rw [hout nid' hnd.1, hget1self, hn]
        rfl
      · have hne : nid' ≠ nid := fun he => hnd.1 (he ▸ hm)
        rw [hin nid' hm, hget1 nid' hne]

/-- Characterization of the remove_way node loop: on duplicate-free node ids
that are all present, it succeeds, leaves the way store intact, detaches the
way id from each listed node, deletes exactly those listed nodes whose
incident list becomes empty, and touches no other node. -/
theorem remove_way_nodes_spec (wid : Nat) :
    ∀ (nids : List Nat) (g : Network), nids.Nodup →
    (∀ nid ∈ nids, (alist_get nid g.nodes).isSome) →
    option_holds (fun g' =>
      g'.ways = g.ways ∧
      ((g.nodes.map Prod.fst).Nodup → (g'.nodes.map Prod.fst).Nodup) ∧
      (∀ nid, nid ∉ nids → alist_get nid g'.nodes = alist_get nid g.nodes) ∧
      (∀ nid ∈ nids, ∀ n, alist_get nid g.nodes = some n →
        (n.way_ids.erase wid = [] → alist_get nid g'.nodes = none) ∧
        (n.way_ids.erase wid ≠ [] →
          alist_get nid g'.nodes = some (remove_way_id n wid))))
      (remove_way_nodes wid nids g) := by
  intro nids
  induction nids with
  | nil =>
    intro g _ _
    exact ⟨rfl, fun h => h, fun _ _ => rfl, by simp⟩
  | cons nid rest ih =>
    intro g hnd hpres
    obtain ⟨n, hn⟩ : ∃ n, alist_get nid g.nodes = some n :=
      Option.isSome_iff_exists.mp (hpres nid (by simp))
    rw [List.nodup_cons] at hnd
    by_cases hdel : (remove_way_id n wid).way_ids.length = 0
    · -- the node's incident list empties out: the node is deleted
      set g1 : Network := { g with nodes := alist_erase nid g.nodes } with hg1
      have hget1 : ∀ nid', nid' ≠ nid → alist_get nid' g1.nodes = alist_get nid' g.nodes :=
        fun nid' hne => alist_get_erase_ne g.nodes hne
      have hget1self : alist_get nid g1.nodes = none := alist_get_erase_self nid g.nodes
      have hpres1 : ∀ nid' ∈ rest, (alist_get nid' g1.nodes).isSome := by
        intro nid' hm
        have hne : nid' ≠ nid := fun he => hnd.1 (he ▸ hm)
        rw [hget1 nid' hne]
        exact hpres nid' (by simp [hm])
      have hrec := ih g1 hnd.2 hpres1
      rw [remove_way_nodes, hn]
      simp only [if_pos hdel]
      rcases option_holds_elim hrec with ⟨g', hg', hw, hk, hout, hin⟩
      refine option_holds_of_eq_some hg' ⟨hw, ?_, ?_, ?_⟩
      · intro hnodup
        refine hk ?_
        exact (alist_erase_keys_sublist nid g.nodes).nodup hnodup
      · intro nid' hnm
        rw [List.mem_cons] at hnm
        push_neg at hnm
        rw [hout nid' hnm.2, hget1 nid' hnm.1]
      · intro nid' hm n' hn'
        rcases List.mem_cons.mp hm with rfl | hm
        · rw [hn] at hn'
          obtain rfl := Option.some.inj hn'
          have hmt : n.way_ids.erase wid = [] :=
            List.length_eq_zero.mp (by simpa [remove_way_id] using hdel)
          refine ⟨fun _ => ?_, fun hne => absurd hmt hne⟩
          rw [hout nid' hnd.1, hget1self]
        · have hne : nid' ≠ nid := fun he => hnd.1 (he ▸ hm)
          have hn1 : alist_get nid' g1.nodes = some n' := by
            rw [hget1 nid' hne]
            exact hn'
          exact hin nid' hm n' hn1
    · -- the node keeps a nonempty incident list: write the detached node back
      set g1 : Network := { g with nodes := alist_set nid (remove_way_id n wid) g.nodes }
        with hg1
      have hget1 : ∀ nid', nid' ≠ nid → alist_get nid' g1.nodes = alist_get nid' g.nodes :=
        fun nid' hne => alist_get_set_ne (remove_way_id n wid) g.nodes hne
      have hget1self : alist_get nid g1.nodes = some (remove_way_id n wid) :=
        alist_get_set_self nid (remove_way_id n wid) g.nodes
      have hpres1 : ∀ nid' ∈ rest, (alist_get nid' g1.nodes).isSome := by
        intro nid' hm
        by_cases hne : nid' = nid
        · rw [hne, hget1self]
          rfl
        · rw [hget1 nid' hne]
          exact hpres nid' (by simp [hm])
      have hkeys1 : g1.nodes.map Prod.fst = g.nodes.map Prod.fst :=
        alist_set_keys_of_get_isSome (remove_way_id n wid) (by rw [hn]; rfl)
      have hrec := ih g1 hnd.2 hpres1
      rw [remove_way_nodes, hn]
      simp only [if_neg hdel]
      rcases option_holds_elim hrec with ⟨g', hg', hw, hk, hout, hin⟩
      refine option_holds_of_eq_some hg' ⟨hw, ?_, ?_, ?_⟩
      · intro hnodup
        exact hk (hkeys1 ▸ hnodup)
      · intro nid' hnm
        rw [List.mem_cons] at hnm
        push_neg at hnm
        rw [hout nid' hnm.2, hget1 nid' hnm.1]
      · intro nid' hm n' hn'
        rcases List.mem_cons.mp hm with rfl | hm
        · rw [hn] at hn'
          obtain rfl := Option.some.inj hn'
          have hne : n.way_ids.erase wid ≠ [] := by
            intro he
            exact hdel (by simp [remove_way_id, he])
          refine ⟨fun he => absurd he hne, fun _ => ?_⟩
          rw [hout nid' hnd.1, hget1self]
        · have hne : nid' ≠ nid := fun he => hnd.1 (he ▸ hm)
          have hn1 : alist_get nid' g1.nodes = some n' := by
            rw [hget1 nid' hne]
            exact hn'
          exact hin nid' hm n' hn1

/-- Characterization of Network.add_way: the way is stored, every listed node
gains the way id at the end of its incident list, nothing else changes. -/
theorem add_way_spec (g : Network) (w : Way) (hnd : w.nids.Nodup)
    (hpres : ∀ nid ∈ w.nids, (alist_get nid g.nodes).isSome) :
    option_holds (fun g' =>
      g'.ways = alist_set w.id w g.ways ∧
      g'.nodes.map Prod.fst = g.nodes.map Prod.fst ∧
      (∀ nid, nid ∉ w.nids → alist_get nid g'.nodes = alist_get nid g.nodes) ∧
      (∀ nid ∈ w.nids, alist_get nid g'.nodes =
        (alist_get nid g.nodes).map (fun n => append_way n w.id)))
      (add_way g w) :=
  update_nodes_spec (fun n => append_way n w.id) w.nids
    { g with ways := alist_set w.id w g.ways } hnd hpres

/-- Characterization of Network.join_ways when way 2 exists and its nodes are
present: way 2 is deleted; each of way 2's nodes gets `wid1` appended and
`wid2` detached; way 1 and all other nodes are untouched. -/
theorem join_ways_spec (g : Network) (wid1 wid2 : Nat) (way2 : Way)
    (h2 : alist_get wid2 g.ways = some way2) (hnd : way2.nids.Nodup)
    (hpres : ∀ nid ∈ way2.nids, (alist_get nid g.nodes).isSome) :
    option_holds (fun g' =>
      g'.ways = alist_erase wid2 g.ways ∧
      g'.nodes.map Prod.fst = g.nodes.map Prod.fst ∧
      (∀ nid, nid ∉ way2.nids → alist_get nid g'.nodes = alist_get nid g.nodes) ∧
      (∀ nid ∈ way2.nids, alist_get nid g'.nodes =
        (alist_get nid g.nodes).map (fun n => remove_way_id (append_way n wid1) wid2)))
      (join_ways g wid1 wid2) := by
  have hrec := update_nodes_spec (fun n => remove_way_id (append_way n wid1) wid2)
    way2.nids g hnd hpres
  simp only [join_ways, h2]
  rcases option_holds_elim hrec with ⟨g1, hg1, hw, hk, hout, hin⟩
  rw [hg1, Option.map_some']
  exact option_holds_of_eq_some rfl ⟨by rw [hw], hk, hout, hin⟩

/-- Characterization of Network.remove_way on an existing way with
duplicate-free, present node references. -/
theorem remove_way_spec (g : Network) (wid : Nat) (way : Way)
    (hw : alist_get wid g.ways = some way) (hnd : way.nids.Nodup)
    (hpres : ∀ nid ∈ way.nids, (alist_get nid g.nodes).isSome) :
    option_holds (fun g' =>
      alist_get wid g'.ways = none ∧
      (∀ k, k ≠ wid → alist_get k g'.ways = alist_get k g.ways) ∧
      ((g.nodes.map Prod.fst).Nodup → (g'.nodes.map Prod.fst).Nodup) ∧
      ((g.ways.map Prod.fst).Nodup → (g'.ways.map Prod.fst).Nodup) ∧
      g'.ways = alist_erase wid g.ways ∧
      (∀ nid, nid ∉ way.nids → alist_get nid g'.nodes = alist_get nid g.nodes) ∧
      (∀ nid ∈ way.nids, ∀ n, alist_get nid g.nodes = some n →
        (n.way_ids.erase wid = [] → alist_get nid g'.nodes = none) ∧
        (n.way_ids.erase wid ≠ [] →
          alist_get nid g'.nodes = some (remove_way_id n wid))))
      (remove_way g wid) := by
  have hrec := remove_way_nodes_spec wid way.nids g hnd hpres
  simp only [remove_way, hw]
  rcases option_holds_elim hrec with ⟨g1, hg1, hw1, hk1, hout, hin⟩
  rw [hg1, Option.map_some']
  refine option_holds_of_eq_some rfl ?_
  refine ⟨?_, ?_, hk1, ?_, by rw [hw1], hout, hin⟩
  · exact alist_get_erase_self wid g1.ways
  · intro k hk
    rw [alist_get_erase_ne g1.ways hk, hw1]
  · intro hnodup
    have : g1.ways.map Prod.fst = g.ways.map Prod.fst := by rw [hw1]
    exact (alist_erase_keys_sublist wid g1.ways).nodup (this ▸ hnodup)

theorem ways_containing_congr {g1 : Network} (g2 : Network) (h : g1.ways = g2.ways) (nid : Nat) :
    ways_containing g1 nid = ways_containing g2 nid := by
  unfold ways_containing
  rw [h]

/-- Membership in ways_containing after storing a fresh way. -/
theorem mem_ways_containing_set_fresh {g : Network} {w : Way} {nid y : Nat}
    (hfresh : alist_get w.id g.ways = none) :
    y ∈ ways_containing { g with ways := alist_set w.id w g.ways } nid ↔
      (y ∈ ways_containing g nid ∨ (y = w.id ∧ nid ∈ w.nids)) := by
  have hset : alist_set w.id w g.ways = g.ways ++ [(w.id, w)] :=
    alist_set_of_get_eq_none w hfresh
  rw [mem_ways_containing_iff]
  show (∃ p ∈ alist_set w.id w g.ways, p.1 = y ∧ nid ∈ p.2.nids) ↔ _
  rw [hset]
  constructor
  · rintro ⟨p, hp, rfl, hc⟩
    rcases List.mem_append.mp hp with hp | hp
    · exact Or.inl (mem_ways_containing_iff.mpr ⟨p, hp, rfl, hc⟩)
    · simp only [List.mem_singleton] at hp
      subst hp
      exact Or.inr ⟨rfl, hc⟩
  · rintro (hy | ⟨rfl, hc⟩)
    · rcases mem_ways_containing_iff.mp hy with ⟨p, hp, rfl, hc⟩
      exact ⟨p, List.mem_append_left _ hp, rfl, hc⟩
    · exact ⟨(w.id, w), List.mem_append_right _ (by simp), rfl, hc⟩

/-- Membership in ways_containing after deleting a way id. -/
theorem mem_ways_containing_erase {g : Network} {wid nid y : Nat} :
    y ∈ ways_containing { g with ways := alist_erase wid g.ways } nid ↔
      (y ≠ wid ∧ y ∈ ways_containing g nid) := by
  rw [mem_ways_containing_iff]
  show (∃ p ∈ alist_erase wid g.ways, p.1 = y ∧ nid ∈ p.2.nids) ↔ _
  constructor
  · rintro ⟨p, hp, rfl, hc⟩
    rcases mem_alist_erase_iff.mp hp with ⟨hm, hne⟩
    exact ⟨hne, mem_ways_containing_iff.mpr ⟨p, hm, rfl, hc⟩⟩
  · rintro ⟨hne, hy⟩
    rcases mem_ways_containing_iff.mp hy with ⟨p, hp, rfl, hc⟩
    exact ⟨p, mem_alist_erase_iff.mpr ⟨hp, hne⟩, rfl, hc⟩

/-- Adding a fresh way whose nodes exist and whose node sequence is
duplicate-free preserves the incident invariant and key uniqueness. -/
theorem add_way_preserves (g : Network) (w : Way)
    (hkeys : KeysOK g) (hinv : InvIncident g)
    (hfresh : alist_get w.id g.ways = none)
    (hnd : w.nids.Nodup)
    (hpres : ∀ nid ∈ w.nids, (alist_get nid g.nodes).isSome) :
    option_holds (fun g' => InvIncident g' ∧ KeysOK g') (add_way g w) := by
  rcases option_holds_elim (add_way_spec g w hnd hpres) with
    ⟨g', hg', hwys, hnkeys, hout, hin⟩
  have hwidnotin : w.id ∉ g.ways.map Prod.fst := by
    intro hmem
    have := alist_get_isSome_iff_mem_keys.mpr hmem
    rw [hfresh] at this
    exact absurd this (by simp)
  have hkeys' : KeysOK g' := by
    constructor
    · rw [hnkeys]
      exact hkeys.1
    · rw [hwys, alist_set_keys_of_get_eq_none w hfresh]
      refine List.Nodup.append hkeys.2 (List.nodup_singleton _) ?_
      intro a ha hb
      rw [List.mem_singleton] at hb
      exact hwidnotin (hb ▸ ha)
  refine option_holds_of_eq_some hg' ⟨?_, hkeys'⟩
  intro p hp
  have hget : alist_get p.1 g'.nodes = some p.2 := mem_alist_get_of_keys_nodup hkeys'.1 hp
  have hwc : ∀ y, y ∈ ways_containing g' p.1 ↔
      (y ∈ ways_containing g p.1 ∨ (y = w.id ∧ p.1 ∈ w.nids)) := by
    intro y
    rw [ways_containing_congr { g with ways := alist_set w.id w g.ways } hwys p.1]
    exact mem_ways_containing_set_fresh hfresh
  by_cases hmem : p.1 ∈ w.nids
  · have := hin p.1 hmem
    rw [hget] at this
    obtain ⟨n, hn, hpn⟩ : ∃ n, alist_get p.1 g.nodes = some n ∧ p.2 = append_way n w.id := by
      cases hn : alist_get p.1 g.nodes with
      | none => rw [hn] at this; exact absurd this (by simp)
      | some n =>
        rw [hn, Option.map_some'] at this
        exact ⟨n, rfl, Option.some.inj this⟩
    obtain ⟨hnodup_n, hfwd, hbwd⟩ := hinv (p.1, n) (alist_get_mem hn)
    have hwid_not : w.id ∉ n.way_ids := by
      intro hc
      exact hwidnotin (ways_containing_subset_keys (hfwd w.id hc))
    rw [hpn]
    refine ⟨?_, ?_, ?_⟩
    · show (n.way_ids ++ [w.id]).Nodup
      refine List.Nodup.append hnodup_n (List.nodup_singleton _) ?_
      intro a ha hb
      rw [List.mem_singleton] at hb
      exact hwid_not (hb ▸ ha)
    · intro y hy
      simp only [append_way, List.mem_append, List.mem_singleton] at hy
      rcases hy with hy | rfl
      · exact (hwc y).mpr (Or.inl (hfwd y hy))
      · exact (hwc w.id).mpr (Or.inr ⟨rfl, hmem⟩)
    · intro y hy
      rcases (hwc y).mp hy with hy | ⟨rfl, _⟩
      · simp only [append_way, List.mem_append]
        exact Or.inl (hbwd y hy)
      · simp [append_way]
  · have hgetg : alist_get p.1 g.nodes = some p.2 := by
      rw [← hout p.1 hmem, hget]
    obtain ⟨hnodup_n, hfwd, hbwd⟩ := hinv (p.1, p.2) (alist_get_mem hgetg)
    refine ⟨hnodup_n, ?_, ?_⟩
    · intro y hy
      exact (hwc y).mpr (Or.inl (hfwd y hy))
    · intro y hy
      rcases (hwc y).mp hy with hy | ⟨_, hc⟩
      · exact hbwd y hy
      · exact absurd hc hmem

/-- Removing an existing way (with duplicate-free node references, all
present) preserves the incident invariant and key uniqueness. -/
theorem remove_way_preserves (g : Network) (wid : Nat) (way : Way)
    (hkeys : KeysOK g) (hinv : InvIncident g)
    (hw : alist_get wid g.ways = some way)
    (hnd : way.nids.Nodup)
    (hpres : ∀ nid ∈ way.nids, (alist_get nid g.nodes).isSome) :
    option_holds (fun g' => InvIncident g' ∧ KeysOK g') (remove_way g wid) := by
  rcases option_holds_elim (remove_way_spec g wid way hw hnd hpres) with
    ⟨g', hg', hwnone, hwother, hknodes, hkways, hweq, hout, hin⟩
  have hkeys' : KeysOK g' := ⟨hknodes hkeys.1, hkways hkeys.2⟩
  refine option_holds_of_eq_some hg' ⟨?_, hkeys'⟩
  intro p hp
  have hget : alist_get p.1 g'.nodes = some p.2 := mem_alist_get_of_keys_nodup hkeys'.1 hp
  have hwc : ∀ y, y ∈ ways_containing g' p.1 ↔
      (y ≠ wid ∧ y ∈ ways_containing g p.1) := by
    intro y
    rw [ways_containing_congr { g with ways := alist_erase wid g.ways } hweq p.1]
    exact mem_ways_containing_erase
  by_cases hmem : p.1 ∈ way.nids
  · obtain ⟨n, hn⟩ : ∃ n, alist_get p.1 g.nodes = some n :=
      Option.isSome_iff_exists.mp (hpres p.1 hmem)
    obtain ⟨hdel, hkeep⟩ := hin p.1 hmem n hn
    obtain ⟨hnodup_n, hfwd, hbwd⟩ := hinv (p.1, n) (alist_get_mem hn)
    by_cases hcase : n.way_ids.erase wid = []
    · rw [hdel hcase] at hget
      exact absurd hget (by simp)
    · have := hkeep hcase
      rw [hget] at this
      have hpn : p.2 = remove_way_id n wid := Option.some.inj this
      rw [hpn]
      refine ⟨hnodup_n.erase wid, ?_, ?_⟩
      · intro y hy
        simp only [remove_way_id] at hy
        rcases (List.Nodup.mem_erase_iff hnodup_n).mp hy with ⟨hne, hy⟩
        exact (hwc y).mpr ⟨hne, hfwd y hy⟩
      · intro y hy
        rcases (hwc y).mp hy with ⟨hne, hy⟩
        simp only [remove_way_id]
        exact (List.Nodup.mem_erase_iff hnodup_n).mpr ⟨hne, hbwd y hy⟩
  · have hgetg : alist_get p.1 g.nodes = some p.2 := by
      rw [← hout p.1 hmem, hget]
    obtain ⟨hnodup_n, hfwd, hbwd⟩ := hinv (p.1, p.2) (alist_get_mem hgetg)
    refine ⟨hnodup_n, ?_, ?_⟩
    · intro y hy
      refine (hwc y).mpr ⟨?_, hfwd y hy⟩
      rintro rfl
      rcases mem_ways_containing_iff.mp (hfwd y hy) with ⟨q, hq, hq1, hqc⟩
      have : alist_get q.1 g.ways = some q.2 := mem_alist_get_of_keys_nodup hkeys.2 hq
      rw [hq1, hw] at this
      have hqway : q.2 = way := by injection this with h; exact h.symm
      rw [hqway] at hqc
      exact hmem hqc
    · intro y hy
      exact hbwd y ((hwc y).mp hy).2

/-- Concrete three-node, two-way network used to exercise join_ways:
ways 10 = [1,2] and 20 = [2,3], with consistent incident lists. -/
def joinDemo : Network :=
  { nodes := [(1, ⟨1, 0, 0, [10], 2⟩), (2, ⟨2, 0, 1, [10, 20], 2⟩), (3, ⟨3, 0, 2, [20], 2⟩)],
    ways := [(10, ⟨10, [1, 2], none⟩), (20, ⟨20, [2, 3], none⟩)] }

/-- Claim C1 (counterexample): the incident-way invariant does NOT survive
every public graph operation.  On a valid two-way network, join_ways(10, 20)
appends way 10 to the incident lists of way 20's nodes without splicing those
nodes into way 10's node sequence (network.py lines 128-140), so afterwards
node 3 lists way 10 but no way's node sequence contains node 3, and node 2's
incident list holds a duplicate. -/
theorem claim_C1_counterexample :
    InvIncident joinDemo ∧ KeysOK joinDemo ∧
    option_holds (fun g' => ¬ InvIncident g') (join_ways joinDemo 10 20) :=
  ⟨by decide, by decide, by decide⟩

/-- Claim C1 (amended): on a well-formed graph the incident-way invariant
(duplicate-free incident lists matching exactly the ways whose sequences
contain the node) is preserved by add_way (for a fresh way id whose
duplicate-free node sequence references existing nodes) and by remove_way
(for an existing way with duplicate-free, present node references); it is
not preserved by join_ways, which relabels nodes without touching way 1's
node sequence (see the counterexample). -/
theorem claim_C1_amended :
    (∀ g w, KeysOK g → InvIncident g → alist_get w.id g.ways = none →
      w.nids.Nodup → (∀ nid ∈ w.nids, (alist_get nid g.nodes).isSome) →
      option_holds (fun g' => InvIncident g' ∧ KeysOK g') (add_way g w)) ∧
    (∀ g wid way, KeysOK g → InvIncident g → alist_get wid g.ways = some way →
      way.nids.Nodup → (∀ nid ∈ way.nids, (alist_get nid g.nodes).isSome) →
      option_holds (fun g' => InvIncident g' ∧ KeysOK g') (remove_way g wid)) :=
  ⟨fun g w hk hi hf hn hp => add_way_preserves g w hk hi hf hn hp,
   fun g wid way hk hi hw hn hp => remove_way_preserves g wid way hk hi hw hn hp⟩

/-- Witness for claim C1 (amended) at a concrete network. -/
theorem claim_C1_witness :
    option_holds (fun g' => InvIncident g' ∧ KeysOK g')
      (add_way joinDemo ⟨30, [1, 3], none⟩) ∧
    option_holds (fun g' => InvIncident g' ∧ KeysOK g') (remove_way joinDemo 10) :=
  ⟨claim_C1_amended.1 joinDemo ⟨30, [1, 3], none⟩ (by decide) (by decide) (by decide)
      (by decide) (by decide),
   claim_C1_amended.2 joinDemo 10 ⟨10, [1, 2], none⟩ (by decide) (by decide) (by decide)
      (by decide) (by decide)⟩

/-- Claim C2: remove_way on an existing way detaches the way id from every
referenced node, deletes exactly the nodes referenced by no other way, keeps
(with the id detached) every node some other way still references, leaves all
other nodes and ways alone, and finally deletes the way itself. -/
theorem claim_C2_remove_way (g : Network) (wid : Nat) (way : Way)
    (hinv : InvIncident g)
    (hw : alist_get wid g.ways = some way)
    (hnd : way.nids.Nodup)
    (hpres : ∀ nid ∈ way.nids, (alist_get nid g.nodes).isSome) :
    option_holds (fun g' =>
      alist_get wid g'.ways = none ∧
      (∀ k, k ≠ wid → alist_get k g'.ways = alist_get k g.ways) ∧
      (∀ nid ∈ way.nids, ∀ n, alist_get nid g.nodes = some n →
        ((∀ p ∈ g.ways, nid ∈ p.2.nids → p.1 = wid) →
          alist_get nid g'.nodes = none) ∧
        ((∃ p ∈ g.ways, p.1 ≠ wid ∧ nid ∈ p.2.nids) →
          alist_get nid g'.nodes = some (remove_way_id n wid))) ∧
      (∀ nid, nid ∉ way.nids → alist_get nid g'.nodes = alist_get nid g.nodes))
      (remove_way g wid) := by
  rcases option_holds_elim (remove_way_spec g wid way hw hnd hpres) with
    ⟨g', hg', hwnone, hwother, _, _, _, hout, hin⟩
  refine option_holds_of_eq_some hg' ⟨hwnone, hwother, ?_, hout⟩
  intro nid hmem n hn
  obtain ⟨hnodup_n, hfwd, hbwd⟩ := hinv (nid, n) (alist_get_mem hn)
  obtain ⟨hdel, hkeep⟩ := hin nid hmem n hn
  constructor
  · intro hall
    refine hdel ((nodup_erase_eq_nil_iff hnodup_n).mpr ?_)
    intro y hy
    rcases mem_ways_containing_iff.mp (hfwd y hy) with ⟨p, hp, rfl, hc⟩
    exact hall p hp hc
  · rintro ⟨p, hp, hpne, hpc⟩
    refine hkeep ?_
    intro he
    have hmemw : p.1 ∈ n.way_ids := hbwd p.1 (mem_ways_containing_iff.mpr ⟨p, hp, rfl, hpc⟩)
    have : p.1 ∈ n.way_ids.erase wid :=
      (List.Nodup.mem_erase_iff hnodup_n).mpr ⟨hpne, hmemw⟩
    rw [he] at this
    simp at this

/-- Witness for claim C2: removing way 10 from the demo network deletes node
1 (only way 10 references it), keeps node 2 (way 20 still references it) with
way 10 detached, and deletes way 10. -/
theorem claim_C2_witness :
    option_holds (fun g' =>
      alist_get 10 g'.ways = none ∧
      (∀ k, k ≠ 10 → alist_get k g'.ways = alist_get k joinDemo.ways) ∧
      (∀ nid ∈ (⟨10, [1, 2], none⟩ : Way).nids, ∀ n,
        alist_get nid joinDemo.nodes = some n →
        ((∀ p ∈ joinDemo.ways, nid ∈ p.2.nids → p.1 = 10) →
          alist_get nid g'.nodes = none) ∧
        ((∃ p ∈ joinDemo.ways, p.1 ≠ 10 ∧ nid ∈ p.2.nids) →
          alist_get nid g'.nodes = some (remove_way_id n 10))) ∧
      (∀ nid, nid ∉ (⟨10, [1, 2], none⟩ : Way).nids →
        alist_get nid g'.nodes = alist_get nid joinDemo.nodes))
      (remove_way joinDemo 10) :=
  claim_C2_remove_way joinDemo 10 ⟨10, [1, 2], none⟩ (by decide) (by decide)
    (by decide) (by decide)

/-- Claim C8 (counterexample): a join_ways call whose FIRST way id is absent
is not skipped: the code never looks `way_id_1` up (network.py lines
130-140), so with way id 99 absent the call still rewires way 20's
nodes onto the nonexistent way 99 and deletes way 20. -/
theorem claim_C8_counterexample :
    alist_get 99 joinDemo.ways = none ∧
    option_holds (fun g' => g' ≠ joinDemo ∧ alist_get 20 g'.ways = none ∧
      alist_get 3 g'.nodes = some ⟨3, 0, 2, [99], 2⟩)
      (join_ways joinDemo 99 20) :=
  ⟨by decide, by decide⟩

/-- Claim C8 (amended): when way 2 is absent, join_ways is a logged no-op
that raises nothing and modifies nothing; but when way 2 exists the call
proceeds regardless of whether way 1 exists — each of way 2's nodes gets
`way_id_1` appended and `way_id_2` detached and way 2 is deleted — so an
absent FIRST id does not make the call a no-op. -/
theorem claim_C8_amended :
    (∀ g wid1 wid2, alist_get wid2 g.ways = none → join_ways g wid1 wid2 = some g) ∧
    (∀ g wid1 wid2 way2, alist_get wid2 g.ways = some way2 → way2.nids.Nodup →
      (∀ nid ∈ way2.nids, (alist_get nid g.nodes).isSome) →
      option_holds (fun g' =>
        alist_get wid2 g'.ways = none ∧
        (∀ nid ∈ way2.nids, alist_get nid g'.nodes =
          (alist_get nid g.nodes).map (fun n => remove_way_id (append_way n wid1) wid2)))
        (join_ways g wid1 wid2)) := by
  constructor
  · intro g wid1 wid2 h
    simp only [join_ways, h]
  · intro g wid1 wid2 way2 h2 hnd hpres
    rcases option_holds_elim (join_ways_spec g wid1 wid2 way2 h2 hnd hpres) with
      ⟨g', hg', hwys, _, _, hin⟩
    refine option_holds_of_eq_some hg' ⟨?_, hin⟩
    rw [hwys]
    exact alist_get_erase_self wid2 g.ways

/-- Witness for claim C8 (amended) at the demo network: way 99 is absent so
join_ways(10, 99) returns the graph unchanged; way 20 exists so
join_ways(10, 20) rewires its nodes and deletes it. -/
theorem claim_C8_witness :
    join_ways joinDemo 10 99 = some joinDemo ∧
    option_holds (fun g' =>
      alist_get 20 g'.ways = none ∧
      (∀ nid ∈ (⟨20, [2, 3], none⟩ : Way).nids, alist_get nid g'.nodes =
        (alist_get nid joinDemo.nodes).map (fun n => remove_way_id (append_way n 10) 20)))
      (join_ways joinDemo 10 20) :=
  ⟨claim_C8_amended.1 joinDemo 10 99 (by decide),
   claim_C8_amended.2 joinDemo 10 20 ⟨20, [2, 3], none⟩ (by decide) (by decide) (by decide)⟩

/-! ## Street splitting (OSM.split_streets, network.py lines 840-874) -/

/-- Whether the node stored under `nid` is an intersection
(network.py line 846: `self.nodes.get(nid).is_intersection()`; a missing
node would raise there, it is modelled as not-an-intersection and the
theorems assume presence). -/
def node_is_intersection (g : Network) (nid : Nat) : Bool :=
  match alist_get nid g.nodes with
  | some n => is_intersection n
  | none => false

/-- network.py lines 846-847: the intersection node ids in sequence order,
each mapped through `list.index` (first occurrence). -/
def split_intersection_indices (nids : List Nat) (isInter : Nat → Bool) : List Nat :=
  (nids.filter isInter).map (fun nid => nids.indexOf nid)

/-- The three `continue` guards of network.py lines 852-857 plus the outer
`len(intersection_indices) > 0` test of line 848: `true` means the way is
left unsplit. -/
def split_skip (nids idxs : List Nat) : Bool :=
  idxs.length == 0 ||
  (idxs.length == 1 && (idxs.getD 0 0 == 0 || idxs.getD 0 0 == nids.length - 1)) ||
  (idxs.length == 2 && idxs.getD 0 0 == 0 && idxs.getD 1 0 == nids.length - 1) ||
  (idxs.length == 2 && idxs.getD 1 0 == 0 && idxs.getD 0 0 == nids.length - 1)

/-- The splitting loop of network.py lines 859-867 followed by the final
segment of line 867: for each index (except 0 and len(nids), the latter test
being vacuous) emit the slice `nids[prev_idx : idx + 1]` and advance
`prev_idx`; finally emit `nids[prev_idx:]`. -/
def split_pieces_loop (nids : List Nat) : List Nat → Nat → List (List Nat)
  | [], prev => [nids.drop prev]
  | idx :: rest, prev =>
    if idx ≠ 0 ∧ idx ≠ nids.length then
      ((nids.drop prev).take (idx + 1 - prev)) :: split_pieces_loop nids rest idx
    else split_pieces_loop nids rest prev

/-- The sub-way node sequences that split_streets cuts one way into. -/
def split_streets_way (nids : List Nat) (isInter : Nat → Bool) : List (List Nat) :=
  split_pieces_loop nids (split_intersection_indices nids isInter) 0

/-- Concatenation of consecutive pieces collapsing the duplicated boundary
node: every piece after the first drops its first element. -/
def join_shared : List (List Nat) → List Nat
  | [] => []
  | [p] => p
  | p :: q :: rest => p ++ (join_shared (q :: rest)).drop 1

/-- The number of strictly interior positions of `nids` holding junction
nodes. -/
def interior_junction_count (nids : List Nat) (isInter : Nat → Bool) : Nat :=
  ((List.range nids.length).filter
    (fun i => decide (0 < i) && decide (i + 1 < nids.length) && isInter (nids.getD i 0))).length

theorem slice_head {l : List Nat} {a b : Nat} (hab : a ≤ b) (ha : a < l.length) :
    ((l.drop a).take (b + 1 - a)).head? = some (l.getD a 0) := by
  have h1 : ((l.drop a).take (b + 1 - a)).head? = ((l.drop a).take (b + 1 - a)).get? 0 := by
    cases h : (l.drop a).take (b + 1 - a) <;> simp [h]
  rw [h1, List.get?_take (by omega), List.get?_drop]
  have : a + 0 < l.length := by omega
  rw [List.getD_eq_get _ _ (by omega)]
  simp [List.get?_eq_get (by omega : a + 0 < l.length)]

theorem slice_getLast {l : List Nat} {a b : Nat} (hab : a ≤ b) (hb : b < l.length) :
    ((l.drop a).take (b + 1 - a)).getLast? = some (l.getD b 0) := by
  have hlen : ((l.drop a).take (b + 1 - a)).length = b + 1 - a := by
    rw [List.length_take, List.length_drop]
    omega
  rw [List.getLast?_eq_get?, hlen]
  have hidx : b + 1 - a - 1 = b - a := by omega
  rw [hidx, List.get?_take (by omega), List.get?_drop]
  have : a + (b - a) = b := by omega
  rw [this, List.getD_eq_get _ _ hb]
  simp [List.get?_eq_get hb]

theorem slice_join {l : List Nat} {a b : Nat} (hab : a ≤ b) :
    (l.drop a).take (b + 1 - a) ++ l.drop (b + 1) = l.drop a := by
  have h1 : l.drop (b + 1) = (l.drop a).drop (b + 1 - a) := by
    rw [List.drop_drop]
    congr 1
    omega
  rw [h1, List.take_append_drop]

theorem drop_head {l : List Nat} {a : Nat} (ha : a < l.length) :
    (l.drop a).head? = some (l.getD a 0) := by
  have h1 : (l.drop a).head? = (l.drop a).get? 0 := by
    cases h : l.drop a <;> simp [h]
  rw [h1, List.get?_drop, Nat.add_zero, List.getD_eq_get _ _ ha]
  simp [List.get?_eq_get ha]

/-- Core lemma on the splitting loop: for a strictly increasing chain of
interior indices, the loop produces one more piece than there are indices,
the pieces collapse-concatenate to the suffix being split, adjacent pieces
share their boundary node, and the first piece starts at position `prev`. -/
theorem split_pieces_loop_spec (nids : List Nat) :
    ∀ (idxs : List Nat) (prev : Nat), List.Chain (· < ·) prev idxs →
    (∀ i ∈ idxs, i + 1 < nids.length) → prev < nids.length →
    (split_pieces_loop nids idxs prev).length = idxs.length + 1 ∧
    join_shared (split_pieces_loop nids idxs prev) = nids.drop prev ∧
    List.Chain' (fun a b => a.getLast? = b.head? ∧ a.getLast? ≠ none)
      (split_pieces_loop nids idxs prev) ∧
    (∀ q, (split_pieces_loop nids idxs prev).head? = some q →
      q.head? = some (nids.getD prev 0)) := by
  intro idxs
  induction idxs with
  | nil =>
    intro prev _ _ hprev
    refine ⟨rfl, rfl, List.chain'_singleton _, ?_⟩
    intro q hq
    simp only [split_pieces_loop, List.head?_cons, Option.some.injEq] at hq
    rw [← hq]
    exact drop_head hprev
  | cons idx rest ih =>
    intro prev hchain hbound hprev
    rcases hchain with _ | ⟨hlt, hchain⟩
    have hidx_len : idx + 1 < nids.length := hbound idx (by simp)
    have hguard : idx ≠ 0 ∧ idx ≠ nids.length := by omega
    have hrec := ih idx hchain (fun i hi => hbound i (by simp [hi])) (by omega)
    obtain ⟨hlen, hjoin, hchain', hhead⟩ := hrec
    rw [split_pieces_loop, if_pos hguard]
    obtain ⟨r, rs, hrs⟩ : ∃ r rs, split_pieces_loop nids rest idx = r :: rs := by
      cases h : split_pieces_loop nids rest idx with
      | nil => rw [h] at hlen; simp at hlen
      | cons r rs => exact ⟨r, rs, rfl⟩
    have hrhead : r.head? = some (nids.getD idx 0) := by
      apply hhead
      rw [hrs]
      rfl
    refine ⟨?_, ?_, ?_, ?_⟩
    · simp only [List.length_cons, hlen]
    · show join_shared (_ :: split_pieces_loop nids rest idx) = _
      rw [hrs]
      show (nids.drop prev).take (idx + 1 - prev) ++
        (join_shared (r :: rs)).drop 1 = nids.drop prev
      rw [← hrs, hjoin]
      have : (nids.drop idx).drop 1 = nids.drop (idx + 1) := by
        rw [List.drop_drop]
      rw [this]
      exact slice_join (by omega)
    · rw [hrs]
      rw [List.chain'_cons']
      constructor
      · intro y hy
        rw [List.head?_cons, Option.mem_def, Option.some.injEq] at hy
        subst hy
        constructor
        · rw [slice_getLast (by omega) (by omega), hrhead]
        · rw [slice_getLast (by omega) (by omega)]
          simp
      · rw [← hrs]
        exact hchain'
    · intro q hq
      rw [List.head?_cons, Option.some.injEq] at hq
      rw [← hq]
      exact slice_head (by omega) hprev

/-- On a duplicate-free node sequence, the index list the splitter builds via
`list.index` is exactly the ascending list of positions holding junction
nodes. -/
theorem split_intersection_indices_eq (isInter : Nat → Bool) :
    ∀ (nids : List Nat), nids.Nodup →
    split_intersection_indices nids isInter =
      (List.range nids.length).filter (fun i => isInter (nids.getD i 0)) := by
  intro nids
  induction nids with
  | nil => intro _; rfl
  | cons a t ih =>
    intro hnd
    rw [List.nodup_cons] at hnd
    unfold split_intersection_indices at ih ⊢
    rw [List.length_cons, List.range_succ_eq_map, List.filter_cons, List.filter_cons]
    have htail : ((List.map Nat.succ (List.range t.length)).filter
        (fun i => isInter ((a :: t).getD i 0))) =
        List.map Nat.succ ((List.range t.length).filter
          (fun i => isInter (t.getD i 0))) := by
      rw [List.filter_map]
      congr 1
    have hmapeq : (t.filter isInter).map (fun nid => (a :: t).indexOf nid) =
        List.map Nat.succ ((t.filter isInter).map (fun nid => t.indexOf nid)) := by
      rw [List.map_map]
      apply List.map_congr_left
      intro x hx
      have hxt : x ∈ t := List.mem_of_mem_filter hx
      have hax : (a == x) = false := by
        simp only [beq_eq_false_iff_ne, ne_eq]
        intro he
        exact hnd.1 (he ▸ hxt)
      simp [List.indexOf_cons, hax, Function.comp, Nat.succ_eq_add_one]
    by_cases hpa : isInter a = true
    · simp only [hpa, if_pos, List.getD_cons_zero, List.map_cons]
      rw [htail, hmapeq, ih hnd.2]
      congr 1
      simp [List.indexOf_cons]
    · have hpa' : isInter a = false := by
        cases h : isInter a
        · rfl
        · exact absurd h hpa
      simp only [hpa', Bool.false_eq_true, if_neg, List.getD_cons_zero]
      simp only [hpa', Bool.false_eq_true, if_false]
      rw [htail, hmapeq, ih hnd.2]

theorem positions_zero_head {l : List Nat} (hp : List.Pairwise (· < ·) l)
    (h0 : 0 ∈ l) : ∃ t, l = 0 :: t := by
  cases l with
  | nil => simp at h0
  | cons a t =>
    rcases List.mem_cons.mp h0 with h | hm
    · exact ⟨t, h ▸ rfl⟩
    · rw [List.pairwise_cons] at hp
      exact absurd (hp.1 0 hm) (by omega)

theorem split_skip_eq_false {nids idxs : List Nat}
    (h1 : idxs ≠ [])
    (h2 : ∀ i ∈ idxs, i ≠ nids.length - 1)
    (h3 : ∃ i ∈ idxs, i ≠ 0) :
    split_skip nids idxs = false := by
  match idxs, h1 with
  | [a], _ =>
    have ha := h2 a (by simp)
    obtain ⟨i, hi, hi0⟩ := h3
    rw [List.mem_singleton] at hi
    subst hi
    simp [split_skip, ha, hi0]
  | [a, b], _ =>
    have ha := h2 a (by simp)
    have hb := h2 b (by simp)
    simp [split_skip, ha, hb]
  | a :: b :: c :: t, _ =>
    simp [split_skip]

/-- Claim C3 core: on a duplicate-free way of length at least 2 whose last
position is not a junction and which has at least one strictly interior
junction, the splitter does split, produces exactly one more sub-way than
there are interior junctions, the sub-ways collapse-concatenate to the
original sequence, and adjacent sub-ways share their boundary node. -/
theorem split_streets_way_spec (nids : List Nat) (isInter : Nat → Bool)
    (hnd : nids.Nodup) (hlen : 2 ≤ nids.length)
    (hlast : isInter (nids.getD (nids.length - 1) 0) = false)
    (hk : 1 ≤ interior_junction_count nids isInter) :
    split_skip nids (split_intersection_indices nids isInter) = false ∧
    (split_streets_way nids isInter).length = interior_junction_count nids isInter + 1 ∧
    join_shared (split_streets_way nids isInter) = nids ∧
    List.Chain' (fun a b => a.getLast? = b.head? ∧ a.getLast? ≠ none)
      (split_streets_way nids isInter) := by
  have hidx := split_intersection_indices_eq isInter nids hnd
  set positions := (List.range nids.length).filter (fun i => isInter (nids.getD i 0))
    with hposdef
  have hpos_pw : List.Pairwise (· < ·) positions :=
    (List.pairwise_lt_range nids.length).filter _
  have hmem : ∀ i ∈ positions, i < nids.length ∧ isInter (nids.getD i 0) = true := by
    intro i hi
    rw [hposdef, List.mem_filter, List.mem_range] at hi
    exact hi
  have hnotlast : ∀ i ∈ positions, i + 1 < nids.length := by
    intro i hi
    obtain ⟨hilen, hInt⟩ := hmem i hi
    by_cases he : i = nids.length - 1
    · rw [he] at hInt
      rw [hInt] at hlast
      exact absurd hlast (by simp)
    · omega
  have hfilter_eq : (List.range nids.length).filter
      (fun i => decide (0 < i) && decide (i + 1 < nids.length) && isInter (nids.getD i 0)) =
      positions.filter (fun i => !(i == 0)) := by
    rw [hposdef, List.filter_filter]
    apply List.filter_congr
    intro i hi
    rw [List.mem_range] at hi
    show (decide (0 < i) && decide (i + 1 < nids.length) && isInter (nids.getD i 0)) =
      (!(i == 0) && isInter (nids.getD i 0))
    cases hInt : isInter (nids.getD i 0) with
    | false => rw [Bool.and_false, Bool.and_false]
    | true =>
      rw [Bool.and_true, Bool.and_true]
      have hne : i ≠ nids.length - 1 := by
        intro he
        rw [he] at hInt
        rw [hInt] at hlast
        exact absurd hlast (by simp)
      have h1 : decide (i + 1 < nids.length) = true := by
        simp only [decide_eq_true_eq]
        omega
      rw [h1, Bool.and_true]
      cases hi0 : (i == 0) with
      | true =>
        rw [beq_iff_eq] at hi0
        subst hi0
        simp
      | false =>
        rw [beq_eq_false_iff_ne] at hi0
        simp [Nat.pos_of_ne_zero hi0]
  have hkcount : interior_junction_count nids isInter =
      (positions.filter (fun i => !(i == 0))).length := by
    unfold interior_junction_count
    rw [hfilter_eq]
  have hpos_ne : positions ≠ [] := by
    intro he
    rw [hkcount, he] at hk
    simp at hk
  rw [split_streets_way, hidx]
  by_cases h0 : 0 ∈ positions
  · obtain ⟨rest, hrest⟩ := positions_zero_head hpos_pw h0
    have hrest_pos : ∀ i ∈ rest, 0 < i := by
      intro i hi
      rw [hrest, List.pairwise_cons] at hpos_pw
      exact hpos_pw.1 i hi
    have hchain : List.Chain (· < ·) 0 rest := by
      rw [List.chain_iff_pairwise, ← hrest]
      exact hpos_pw
    have hloop0 : split_pieces_loop nids positions 0 = split_pieces_loop nids rest 0 := by
      rw [hrest, split_pieces_loop, if_neg (by simp)]
    have hbound : ∀ i ∈ rest, i + 1 < nids.length := by
      intro i hi
      exact hnotlast i (by rw [hrest]; exact List.mem_cons_of_mem _ hi)
    obtain ⟨hl, hj, hc, _⟩ := split_pieces_loop_spec nids rest 0 hchain hbound (by omega)
    have hrestcount : (positions.filter (fun i => !(i == 0))).length = rest.length := by
      rw [hrest, List.filter_cons]
      simp only [beq_self_eq_true, Bool.not_true, Bool.false_eq_true, if_false]
      rw [List.filter_eq_self.mpr]
      intro i hi
      have := hrest_pos i hi
      simpa using by omega
    have hrest_ne : rest ≠ [] := by
      intro he
      rw [hkcount, hrestcount, he] at hk
      simp at hk
    refine ⟨?_, ?_, ?_, ?_⟩
    · rw [hrest]
      apply split_skip_eq_false (by simp)
      · intro i hi
        rcases List.mem_cons.mp hi with rfl | hi
        · omega
        · have := hnotlast i (by rw [hrest]; exact List.mem_cons_of_mem _ hi)
          omega
      · obtain ⟨j, hj'⟩ : ∃ j, j ∈ rest := List.exists_mem_of_ne_nil rest hrest_ne
        exact ⟨j, List.mem_cons_of_mem _ hj', by have := hrest_pos j hj'; omega⟩
    · rw [hloop0, hl, hkcount, hrestcount]
    · rw [hloop0, hj]
      simp
    · rw [hloop0]
      exact hc
  · have hall_pos : ∀ i ∈ positions, 0 < i := by
      intro i hi
      rcases Nat.eq_zero_or_pos i with rfl | h
      · exact absurd hi h0
      · exact h
    have hchain : List.Chain (· < ·) 0 positions := by
      rw [List.chain_iff_pairwise, List.pairwise_cons]
      exact ⟨hall_pos, hpos_pw⟩
    obtain ⟨hl, hj, hc, _⟩ := split_pieces_loop_spec nids positions 0 hchain hnotlast (by omega)
    have hcount : (positions.filter (fun i => !(i == 0))).length = positions.length := by
      rw [List.filter_eq_self.mpr]
      intro i hi
      have := hall_pos i hi
      simpa using by omega
    refine ⟨?_, ?_, ?_, ?_⟩
    · apply split_skip_eq_false hpos_ne
      · intro i hi
        have := hnotlast i hi
        omega
      · obtain ⟨j, hj'⟩ : ∃ j, j ∈ positions :=
          List.exists_mem_of_ne_nil positions hpos_ne
        exact ⟨j, hj', by have := hall_pos j hj'; omega⟩
    · rw [hl, hkcount, hcount]
    · rw [hj]
      simp
    · exact hc

/-- Adding a list of ways in order (network.py lines 859-870 call add_way
once per emitted sub-way). -/
def add_ways_loop (g : Network) : List Way → Option Network
  | [] => some g
  | w :: rest =>
    match add_way g w with
    | none => none
    | some g' => add_ways_loop g' rest

/-- The loop body of OSM.split_streets for one way (network.py lines
845-871): compute the junction positions; unless a guard skips the way, add
each sub-way as a new Street carrying the original way's type (Street(None,
...) assigns fresh ids, supplied here as `freshIds`) and remove the original
way. -/
def split_streets_step (g : Network) (w : Way) (freshIds : List Nat) : Option Network :=
  let idxs := split_intersection_indices w.nids (fun nid => node_is_intersection g nid)
  if split_skip w.nids idxs then some g
  else
    match add_ways_loop g
      (List.zipWith (fun piece fid => (⟨fid, piece, w.wtype⟩ : Way))
        (split_pieces_loop w.nids idxs 0) freshIds) with
    | none => none
    | some g1 => remove_way g1 w.id

theorem add_ways_loop_spec :
    ∀ (ws : List Way) (g : Network),
    (∀ w ∈ ws, w.nids.Nodup) →
    (∀ w ∈ ws, ∀ nid ∈ w.nids, (alist_get nid g.nodes).isSome) →
    option_holds (fun g' =>
      g'.nodes.map Prod.fst = g.nodes.map Prod.fst ∧
      (∀ nid, (alist_get nid g.nodes).isSome → (alist_get nid g'.nodes).isSome) ∧
      (∀ k, (∀ w ∈ ws, w.id ≠ k) → alist_get k g'.ways = alist_get k g.ways) ∧
      ((ws.map Way.id).Nodup → ∀ w ∈ ws, alist_get w.id g'.ways = some w))
      (add_ways_loop g ws) := by
  intro ws
  induction ws with
  | nil =>
    intro g _ _
    exact ⟨rfl, fun _ h => h, fun _ _ => rfl, fun _ w hw => absurd hw (List.not_mem_nil w)⟩
  | cons w rest ih =>
    intro g hnd hpres
    rcases option_holds_elim (add_way_spec g w (hnd w (by simp))
      (hpres w (by simp))) with ⟨g1, hg1, hwys1, hkeys1, hout1, hin1⟩
    have hsome1 : ∀ nid, (alist_get nid g.nodes).isSome → (alist_get nid g1.nodes).isSome := by
      intro nid h
      by_cases hm : nid ∈ w.nids
      · rw [hin1 nid hm]
        cases ho : alist_get nid g.nodes with
        | none => rw [ho] at h; exact absurd h (by simp)
        | some n => simp [ho]
      · rw [hout1 nid hm]
        exact h
    have hrec := ih g1 (fun w' h => hnd w' (List.mem_cons_of_mem _ h))
      (fun w' h nid hn => hsome1 nid (hpres w' (List.mem_cons_of_mem _ h) nid hn))
    rw [add_ways_loop, hg1]
    rcases option_holds_elim hrec with ⟨g2, hg2, hk2, hsome2, hother2, hall2⟩
    refine option_holds_of_eq_some hg2
      ⟨hk2.trans hkeys1, fun nid h => hsome2 nid (hsome1 nid h), ?_, ?_⟩
    · intro k hkne
      rw [hother2 k (fun w' h => hkne w' (List.mem_cons_of_mem _ h)), hwys1]
      exact alist_get_set_ne w g.ways (fun he => hkne w (by simp) he.symm)
    · intro hnodup w' hw'
      rw [List.map_cons, List.nodup_cons] at hnodup
      rcases List.mem_cons.mp hw' with rfl | hw'
      · rw [hother2 w'.id (fun w'' h he => hnodup.1 (he ▸ List.mem_map_of_mem Way.id h)),
          hwys1, alist_get_set_self]
      · exact hall2 hnodup.2 w' hw'

theorem split_pieces_member_sublist (nids : List Nat) :
    ∀ (idxs : List Nat) (prev : Nat) (p : List Nat),
    p ∈ split_pieces_loop nids idxs prev → p.Sublist nids := by
  intro idxs
  induction idxs with
  | nil =>
    intro prev p hp
    rw [split_pieces_loop, List.mem_singleton] at hp
    exact hp ▸ List.drop_sublist prev nids
  | cons idx rest ih =>
    intro prev p hp
    rw [split_pieces_loop] at hp
    by_cases hg : idx ≠ 0 ∧ idx ≠ nids.length
    · rw [if_pos hg, List.mem_cons] at hp
      rcases hp with rfl | hp
      · exact (List.take_sublist _ _).trans (List.drop_sublist _ _)
      · exact ih idx p hp
    · rw [if_neg hg] at hp
      exact ih prev p hp

theorem zip_ways_ids :
    ∀ (pieces : List (List Nat)) (fids : List Nat) (t : Option String),
    pieces.length = fids.length →
    (List.zipWith (fun piece fid => (⟨fid, piece, t⟩ : Way)) pieces fids).map Way.id = fids := by
  intro pieces
  induction pieces with
  | nil =>
    intro fids t hlen
    cases fids with
    | nil => rfl
    | cons f fs => exact absurd hlen (by simp)
  | cons p ps ih =>
    intro fids t hlen
    cases fids with
    | nil => exact absurd hlen (by simp)
    | cons f fs =>
      rw [List.zipWith_cons_cons, List.map_cons, ih fs t (by simpa using hlen)]

theorem mem_zip_ways {t : Option String} :
    ∀ {pieces : List (List Nat)} {fids : List Nat} {wy : Way},
    wy ∈ List.zipWith (fun piece fid => (⟨fid, piece, t⟩ : Way)) pieces fids →
    wy.nids ∈ pieces ∧ wy.id ∈ fids := by
  intro pieces
  induction pieces with
  | nil =>
    intro fids wy hw
    simp at hw
  | cons p ps ih =>
    intro fids wy hw
    cases fids with
    | nil => simp at hw
    | cons f fs =>
      rw [List.zipWith_cons_cons, List.mem_cons] at hw
      rcases hw with rfl | hw
      · exact ⟨by simp, by simp⟩
      · obtain ⟨h1, h2⟩ := ih hw
        exact ⟨List.mem_cons_of_mem _ h1, List.mem_cons_of_mem _ h2⟩

theorem zip_ways_getD_mem {t : Option String} :
    ∀ (pieces : List (List Nat)) (fids : List Nat) (i : Nat),
    i < pieces.length → pieces.length = fids.length →
    (⟨fids.getD i 0, pieces.getD i [], t⟩ : Way) ∈
      List.zipWith (fun piece fid => (⟨fid, piece, t⟩ : Way)) pieces fids := by
  intro pieces
  induction pieces with
  | nil =>
    intro fids i hi _
    exact absurd hi (by simp)
  | cons p ps ih =>
    intro fids i hi hlen
    cases fids with
    | nil => exact absurd hlen (by simp)
    | cons f fs =>
      rw [List.zipWith_cons_cons]
      cases i with
      | zero => simp
      | succ j =>
        refine List.mem_cons_of_mem _ ?_
        simpa using ih fs j (by simpa using hi) (by simpa using hlen)

/-- Claim C3 (amended): for a way (duplicate-free, present nodes, at least
one strictly interior junction, and whose LAST node is not itself a
junction), split_streets cuts the way into interior-junction-count + 1
contiguous sub-ways sharing their boundary nodes, whose collapse-concatenation
is the original sequence; the sub-ways are added under fresh ids with the
original way's type and the original way is removed. -/
theorem claim_C3_split_streets (g : Network) (w : Way) (freshIds : List Nat)
    (hw : alist_get w.id g.ways = some w)
    (hnd : w.nids.Nodup)
    (hlen : 2 ≤ w.nids.length)
    (hpres : ∀ nid ∈ w.nids, (alist_get nid g.nodes).isSome)
    (hlast : node_is_intersection g (w.nids.getD (w.nids.length - 1) 0) = false)
    (hk : 1 ≤ interior_junction_count w.nids (fun nid => node_is_intersection g nid))
    (hfnodup : freshIds.Nodup)
    (hflen : (split_streets_way w.nids (fun nid => node_is_intersection g nid)).length =
      freshIds.length)
    (hfne : ∀ fid ∈ freshIds, fid ≠ w.id) :
    (split_streets_way w.nids (fun nid => node_is_intersection g nid)).length =
      interior_junction_count w.nids (fun nid => node_is_intersection g nid) + 1 ∧
    join_shared (split_streets_way w.nids (fun nid => node_is_intersection g nid)) = w.nids ∧
    List.Chain' (fun a b => a.getLast? = b.head? ∧ a.getLast? ≠ none)
      (split_streets_way w.nids (fun nid => node_is_intersection g nid)) ∧
    option_holds (fun g' =>
      alist_get w.id g'.ways = none ∧
      (∀ i, i < (split_streets_way w.nids (fun nid => node_is_intersection g nid)).length →
        alist_get (freshIds.getD i 0) g'.ways =
          some ⟨freshIds.getD i 0,
            (split_streets_way w.nids (fun nid => node_is_intersection g nid)).getD i [],
            w.wtype⟩))
      (split_streets_step g w freshIds) := by
  obtain ⟨hskip, hcount, hjoin, hchain⟩ :=
    split_streets_way_spec w.nids (fun nid => node_is_intersection g nid) hnd hlen hlast hk
  refine ⟨hcount, hjoin, hchain, ?_⟩
  rw [split_streets_step]
  simp only [hskip, Bool.false_eq_true, if_false]
  have hzw : ∀ wy ∈ List.zipWith (fun piece fid => (⟨fid, piece, w.wtype⟩ : Way))
      (split_streets_way w.nids (fun nid => node_is_intersection g nid)) freshIds,
      wy.nids.Nodup ∧ (∀ nid ∈ wy.nids, (alist_get nid g.nodes).isSome) ∧ wy.id ∈ freshIds := by
    intro wy hwy
    obtain ⟨h1, h2⟩ := mem_zip_ways hwy
    have hsub : wy.nids.Sublist w.nids :=
      split_pieces_member_sublist w.nids _ 0 wy.nids h1
    exact ⟨hsub.nodup hnd, fun nid hn => hpres nid (hsub.subset hn), h2⟩
  rcases option_holds_elim (add_ways_loop_spec _ g
    (fun wy hwy => (hzw wy hwy).1) (fun wy hwy => (hzw wy hwy).2.1)) with
    ⟨g2, hg2, _, hsome2, hother2, hall2⟩
  rw [show split_pieces_loop w.nids (split_intersection_indices w.nids
      (fun nid => node_is_intersection g nid)) 0 =
    split_streets_way w.nids (fun nid => node_is_intersection g nid) from rfl]
  rw [hg2]
  have hids : (List.zipWith (fun piece fid => (⟨fid, piece, w.wtype⟩ : Way))
      (split_streets_way w.nids (fun nid => node_is_intersection g nid)) freshIds).map Way.id =
      freshIds := zip_ways_ids _ freshIds w.wtype hflen
  have hwg2 : alist_get w.id g2.ways = some w := by
    rw [hother2 w.id (fun wy hwy he => hfne wy.id (hzw wy hwy).2.2 he)]
    exact hw
  rcases option_holds_elim (remove_way_spec g2 w.id w hwg2 hnd
    (fun nid hn => hsome2 nid (hpres nid hn))) with
    ⟨g3, hg3, hwnone, hwother, _, _, _, _, _⟩
  refine option_holds_of_eq_some hg3 ⟨hwnone, ?_⟩
  intro i hi
  have hifids : i < freshIds.length := by omega
  have hfid_mem : freshIds.getD i 0 ∈ freshIds := by
    rw [List.getD_eq_get _ _ hifids]
    exact List.get_mem _ _ _
  rw [hwother (freshIds.getD i 0) (hfne _ hfid_mem)]
  have hmem := hall2 (by rw [hids]; exact hfnodup)
    (⟨freshIds.getD i 0,
      (split_streets_way w.nids (fun nid => node_is_intersection g nid)).getD i [],
      w.wtype⟩ : Way)
    (zip_ways_getD_mem _ freshIds i hi hflen)
  exact hmem

/-- A five-node way [1,2,3,4,5] with junctions at interior nodes 2 and 3 and
ALSO at its final node 5 (side ways 21, 22, 23 make them intersections). -/
def splitDemo : Network :=
  { nodes := [
      (1, ⟨1, 0, 0, [10], 2⟩), (2, ⟨2, 0, 1, [10, 21], 2⟩),
      (3, ⟨3, 0, 2, [10, 22], 2⟩), (4, ⟨4, 0, 3, [10], 2⟩),
      (5, ⟨5, 0, 4, [10, 23], 2⟩), (6, ⟨6, 1, 1, [21], 2⟩),
      (7, ⟨7, 1, 2, [22], 2⟩), (8, ⟨8, 1, 4, [23], 2⟩)],
    ways := [(10, ⟨10, [1, 2, 3, 4, 5], none⟩), (21, ⟨21, [6, 2], none⟩),
      (22, ⟨22, [7, 3], none⟩), (23, ⟨23, [8, 5], none⟩)] }

/-- Claim C3 (counterexample): a way with exactly two strictly interior
junction nodes does NOT always yield exactly 3 sub-ways: the loop guard
`idx != len(way.nids)` (network.py line 861) fails to exclude the final
position, so a junction at the last node adds a cut there and a degenerate
single-node sub-way — here 4 sub-ways [[1,2],[2,3],[3,4,5],[5]]. -/
theorem claim_C3_counterexample :
    interior_junction_count [1, 2, 3, 4, 5]
      (fun nid => node_is_intersection splitDemo nid) = 2 ∧
    split_skip [1, 2, 3, 4, 5]
      (split_intersection_indices [1, 2, 3, 4, 5]
        (fun nid => node_is_intersection splitDemo nid)) = false ∧
    split_streets_way [1, 2, 3, 4, 5] (fun nid => node_is_intersection splitDemo nid) =
      [[1, 2], [2, 3], [3, 4, 5], [5]] := by
  decide

/-- Like splitDemo but with NO junction at the final node: junctions only at
the interior nodes 2 and 3. -/
def splitDemoW : Network :=
  { nodes := [
      (1, ⟨1, 0, 0, [10], 2⟩), (2, ⟨2, 0, 1, [10, 21], 2⟩),
      (3, ⟨3, 0, 2, [10, 22], 2⟩), (4, ⟨4, 0, 3, [10], 2⟩),
      (5, ⟨5, 0, 4, [10], 2⟩), (6, ⟨6, 1, 1, [21], 2⟩),
      (7, ⟨7, 1, 2, [22], 2⟩)],
    ways := [(10, ⟨10, [1, 2, 3, 4, 5], none⟩), (21, ⟨21, [6, 2], none⟩),
      (22, ⟨22, [7, 3], none⟩)] }

/-- Witness for claim C3 (amended) on a concrete way with exactly two
interior junctions: 3 sub-ways. -/
theorem claim_C3_witness :
    (split_streets_way [1, 2, 3, 4, 5] (fun nid => node_is_intersection splitDemoW nid)).length =
      interior_junction_count [1, 2, 3, 4, 5]
        (fun nid => node_is_intersection splitDemoW nid) + 1 ∧
    join_shared (split_streets_way [1, 2, 3, 4, 5]
      (fun nid => node_is_intersection splitDemoW nid)) = [1, 2, 3, 4, 5] ∧
    List.Chain' (fun a b => a.getLast? = b.head? ∧ a.getLast? ≠ none)
      (split_streets_way [1, 2, 3, 4, 5] (fun nid => node_is_intersection splitDemoW nid)) ∧
    option_holds (fun g' =>
      alist_get 10 g'.ways = none ∧
      (∀ i, i < (split_streets_way [1, 2, 3, 4, 5]
          (fun nid => node_is_intersection splitDemoW nid)).length →
        alist_get ([31, 32, 33].getD i 0) g'.ways =
          some ⟨[31, 32, 33].getD i 0,
            (split_streets_way [1, 2, 3, 4, 5]
              (fun nid => node_is_intersection splitDemoW nid)).getD i [],
            none⟩))
      (split_streets_step splitDemoW ⟨10, [1, 2, 3, 4, 5], none⟩ [31, 32, 33]) :=
  claim_C3_split_streets splitDemoW ⟨10, [1, 2, 3, 4, 5], none⟩ [31, 32, 33]
    (by decide) (by decide) (by decide) (by decide) (by decide) (by decide)
    (by decide) (by decide) (by decide)

/-! ## Two-way cleaner (OSM.clean_street_segmentation, network.py 261-288)
and export tagging (OSM.export, network.py 317-323) -/

/-- The combined node sequence computed by clean_street_segmentation for a
node shared by exactly two ways (network.py lines 273-280).  Python slice
translations: `way_1.nids[:0:-1]` is the reverse of the sequence without its
first element, i.e. `(nids1.drop 1).reverse`; `nids[:-1]` is `dropLast`;
`way_2.nids[1::-1]` is `[nids2[1], nids2[0]]`, i.e. `(nids2.take 2).reverse`. -/
def clean_combined_nids (nids1 nids2 : List Nat) (shared : Nat) : List Nat :=
  let idx1 := nids1.indexOf shared
  let idx2 := nids2.indexOf shared
  if idx1 = 0 ∧ idx2 = 0 then (nids1.drop 1).reverse ++ nids2
  else if idx1 ≠ 0 ∧ idx2 = 0 then nids1.dropLast ++ nids2
  else if idx1 = 0 ∧ idx2 ≠ 0 then nids2.dropLast ++ nids1
  else nids1 ++ (nids2.take 2).reverse

/-- network.py line 283: the fused way is created as
`Street(None, combined_nids, "footway")` — always typed "footway",
irrespective of the two input ways' types. -/
def clean_new_street (fresh : Nat) (nids1 nids2 : List Nat) (shared : Nat) : Way :=
  ⟨fresh, clean_combined_nids nids1 nids2 shared, some "footway"⟩

/-- The highway tag emitted for a way by export(format="osm"), network.py
lines 317-323: a "footway"-typed way is tagged footway=sidewalk instead of
highway=type; untyped ways get no tag. -/
def export_way_tag (w : Way) : Option (String × String) :=
  match w.wtype with
  | none => none
  | some t => if t = "footway" then some ("footway", "sidewalk") else some ("highway", t)

/-- Claim C4 (code evaluated at the failing input): with the shared node at
the END of both ways (fourth concatenation case) and way 2 of length 2, the
slice `way_2.nids[1::-1]` keeps the shared node, so the fused way is
[1,2,3,3,4]: length 5 instead of 3 + 2 - 1 = 4, and the shared node 3 appears
twice instead of once. -/
theorem claim_C4_case4_bug :
    ([1, 2, 3] : List Nat).indexOf 3 ≠ 0 ∧ ([4, 3] : List Nat).indexOf 3 ≠ 0 ∧
    clean_combined_nids [1, 2, 3] [4, 3] 3 = [1, 2, 3, 3, 4] ∧
    ([1, 2, 3] : List Nat).length + ([4, 3] : List Nat).length - 1 = 4 ∧
    (clean_combined_nids [1, 2, 3] [4, 3] 3).length = 5 ∧
    (clean_combined_nids [1, 2, 3] [4, 3] 3).count 3 = 2 := by
  decide

/-- Claim C10: every way synthesized by clean_street_segmentation is typed
"footway" regardless of the two fused ways' road classes, and
export(format="osm") therefore tags it footway=sidewalk. -/
theorem claim_C10_footway_type (fresh : Nat) (nids1 nids2 : List Nat) (shared : Nat) :
    (clean_new_street fresh nids1 nids2 shared).wtype = some "footway" ∧
    export_way_tag (clean_new_street fresh nids1 nids2 shared) =
      some ("footway", "sidewalk") :=
  ⟨rfl, rfl⟩

/-! ## Polyline simplifier (OSM.simplify, network.py lines 775-838) -/

/-- The decimation loop of OSM.simplify (network.py 817-828): while
`float(len(heap) + 2) / len(latlngs) > threshold`, pop one triangle from the
heap (an IndexError on an empty heap breaks the loop).  The heap holds the
interior vertex indices; which index each heappop removes is determined by
the float triangle areas, which are abstracted by the oracle `pick` (the
theorems require only that `pick` returns a member); the neighbour relinking
(lines 820-826) only updates areas and so is absorbed into the oracle. -/
def simplify_loop (N : Nat) (t : ℚ) (pick : List Nat → Nat) : Nat → List Nat → List Nat
  | 0, heap => heap
  | fuel + 1, heap =>
    if ((heap.length : ℚ) + 2) / (N : ℚ) > t then
      if heap = [] then []
      else simplify_loop N t pick fuel (heap.erase (pick heap))
    else heap

/-- Insertion into an ascending list (model of Python list.sort, line 831). -/
def insert_sorted (x : Nat) : List Nat → List Nat
  | [] => [x]
  | y :: ys => if y < x then y :: insert_sorted x ys else x :: y :: ys

/-- Ascending sort (model of `l.sort()`, network.py line 831). -/
def sort_nat : List Nat → List Nat
  | [] => []
  | x :: xs => insert_sorted x (sort_nat xs)

/-- OSM.simplify restricted to what determines its output node sequence
(network.py 775-838): the triangles cover the interior indices 1..N-2
(`window(range(N), 3)`, line 784); after the decimation loop the surviving
indices are sorted (line 831) and mapped back to node ids with the two
endpoint ids re-attached (lines 832-835). -/
def simplify_new_nids (nids : List Nat) (t : ℚ) (pick : List Nat → Nat) : List Nat :=
  let N := nids.length
  let fin := simplify_loop N t pick N (List.range' 1 (N - 2))
  nids.getD 0 0 :: ((sort_nat fin).map (fun i => nids.getD i 0)) ++ [nids.getD (N - 1) 0]

theorem sort_nat_eq_of_pairwise : ∀ {l : List Nat}, List.Pairwise (· < ·) l →
    sort_nat l = l := by
  intro l
  induction l with
  | nil => intro _; rfl
  | cons x xs ih =>
    intro hp
    rw [List.pairwise_cons] at hp
    rw [sort_nat, ih hp.2]
    cases xs with
    | nil => rfl
    | cons y ys =>
      have : ¬ y < x := by
        have := hp.1 y (by simp)
        omega
      rw [insert_sorted, if_neg this]

theorem simplify_loop_succ (N : Nat) (t : ℚ) (pick : List Nat → Nat)
    (fuel : Nat) (heap : List Nat) :
    simplify_loop N t pick (fuel + 1) heap =
      if ((heap.length : ℚ) + 2) / (N : ℚ) > t then
        if heap = [] then []
        else simplify_loop N t pick fuel (heap.erase (pick heap))
      else heap := rfl

theorem simplify_loop_sublist (N : Nat) (t : ℚ) (pick : List Nat → Nat) :
    ∀ (fuel : Nat) (heap : List Nat),
    (simplify_loop N t pick fuel heap).Sublist heap := by
  intro fuel
  induction fuel with
  | zero => intro heap; exact List.Sublist.refl heap
  | succ n ih =>
    intro heap
    rw [simplify_loop_succ]
    by_cases hc : ((heap.length : ℚ) + 2) / (N : ℚ) > t
    · rw [if_pos hc]
      by_cases hnil : heap = []
      · rw [if_pos hnil, hnil]
      · rw [if_neg hnil]
        exact (ih _).trans (List.erase_sublist _ _)
    · rw [if_neg hc]

theorem simplify_loop_length (N : Nat) (t : ℚ) (pick : List Nat → Nat)
    (hpick : ∀ l, l ≠ [] → pick l ∈ l) (hN : 0 < N) :
    ∀ (fuel : Nat) (heap : List Nat),
    min ((heap.length : ℤ) + 2) (⌈t * (N : ℚ)⌉ - 1) ≤
      ((simplify_loop N t pick fuel heap).length : ℤ) + 2 := by
  intro fuel
  induction fuel with
  | zero =>
    intro heap
    have h0 : simplify_loop N t pick 0 heap = heap := rfl
    rw [h0]
    exact min_le_left _ _
  | succ n ih =>
    intro heap
    rw [simplify_loop_succ]
    by_cases hc : ((heap.length : ℚ) + 2) / (N : ℚ) > t
    · rw [if_pos hc]
      have hceil : (⌈t * (N : ℚ)⌉ : ℤ) ≤ (heap.length : ℤ) + 2 := by
        rw [Int.ceil_le]
        have hN' : (0 : ℚ) < (N : ℚ) := by exact_mod_cast hN
        rw [gt_iff_lt, lt_div_iff₀ hN'] at hc
        push_cast
        exact le_of_lt hc
      by_cases hnil : heap = []
      · rw [if_pos hnil, hnil]
        simp only [List.length_nil]
        omega
      · rw [if_neg hnil]
        have hmem : pick heap ∈ heap := hpick _ hnil
        have hlen : (heap.erase (pick heap)).length = heap.length - 1 :=
          List.length_erase_of_mem hmem
        have hrec := ih (heap.erase (pick heap))
        rw [hlen] at hrec
        have hpos : 1 ≤ heap.length := List.length_pos.mpr hnil
        refine le_trans ?_ hrec
        have h1 : ((heap.length - 1 : ℕ) : ℤ) = (heap.length : ℤ) - 1 := by
          omega
        rw [h1]
        omega
    · rw [if_neg hc]
      exact min_le_left _ _

theorem head?_eq_getD (l : List Nat) (h : 0 < l.length) :
    l.head? = some (l.getD 0 0) := by
  cases l with
  | nil => simp at h
  | cons a t => rfl

theorem map_getD_sublist {l : List Nat} :
    ∀ {is : List Nat}, List.Pairwise (· < ·) is → (∀ i ∈ is, i < l.length) →
    (is.map (fun i => l.getD i 0)).Sublist l := by
  intro is hp hb
  have hpm : List.Pairwise (fun a b : Fin l.length => (a : Nat) < b)
      (is.pmap (fun i h => (⟨i, h⟩ : Fin l.length)) hb) :=
    hp.pmap hb (fun x hx y hy hr => hr)
  have := List.map_get_sublist hpm
  rw [List.map_pmap] at this
  have heq : (is.pmap (fun i h => l.get ⟨i, h⟩) hb) = is.map (fun i => l.getD i 0) := by
    calc is.pmap (fun i h => l.get ⟨i, h⟩) hb
        = is.pmap (fun i _ => l.getD i 0) hb := by
          apply List.pmap_congr_left
          intro i hi h1 h2
          rw [List.getD_eq_get _ _ h1]
      _ = is.map (fun i => l.getD i 0) := List.pmap_eq_map _ _ _ _
  rw [heq] at this
  exact this

/-- Claim C5: the simplifier keeps both endpoints, emits the surviving
vertices in original sequence order (the output is a sublist of the input),
and keeps at least ceil(t*N) - 1 vertices (formalizing the spec's
"approximately ceil(t*N)": the loop stops at the first count not exceeding
t*N, which is within one of ceil(t*N), and equals it when t*N is an
integer, e.g. for the default t = 1/2 on even N). -/
theorem claim_C5_simplify (nids : List Nat) (t : ℚ) (pick : List Nat → Nat)
    (hN : 2 ≤ nids.length) (ht : t ≤ 1)
    (hpick : ∀ l, l ≠ [] → pick l ∈ l) :
    (simplify_new_nids nids t pick).head? = nids.head? ∧
    (simplify_new_nids nids t pick).getLast? = nids.getLast? ∧
    (simplify_new_nids nids t pick).Sublist nids ∧
    (⌈t * (nids.length : ℚ)⌉ - 1 : ℤ) ≤ ((simplify_new_nids nids t pick).length : ℤ) := by
  set N := nids.length with hNdef
  set fin := simplify_loop N t pick N (List.range' 1 (N - 2)) with hfin
  have hfin_sub : fin.Sublist (List.range' 1 (N - 2)) :=
    simplify_loop_sublist N t pick N (List.range' 1 (N - 2))
  have hfin_pw : List.Pairwise (· < ·) fin :=
    (List.pairwise_lt_range' 1 (N - 2)).sublist hfin_sub
  have hfin_mem : ∀ i ∈ fin, 1 ≤ i ∧ i < N - 1 := by
    intro i hi
    have := hfin_sub.subset hi
    rw [List.mem_range'_1] at this
    omega
  have hsort : sort_nat fin = fin := sort_nat_eq_of_pairwise hfin_pw
  have hout : simplify_new_nids nids t pick =
      nids.getD 0 0 :: ((fin.map (fun i => nids.getD i 0)) ++ [nids.getD (N - 1) 0]) := by
    rw [simplify_new_nids]
    rw [← hNdef, ← hfin, hsort, List.cons_append]
  have hmapform : simplify_new_nids nids t pick =
      ((0 :: (fin ++ [N - 1])).map (fun i => nids.getD i 0)) := by
    rw [hout, List.map_cons, List.map_append, List.map_singleton]
  refine ⟨?_, ?_, ?_, ?_⟩
  · rw [hout]
    rw [List.head?_cons]
    rw [head?_eq_getD nids (by omega)]
  · rw [hout]
    have h1 : nids.getD 0 0 :: ((fin.map (fun i => nids.getD i 0)) ++ [nids.getD (N - 1) 0]) =
        (nids.getD 0 0 :: fin.map (fun i => nids.getD i 0)) ++ [nids.getD (N - 1) 0] := by
      simp
    rw [h1, List.getLast?_concat]
    rw [List.getLast?_eq_get?]
    rw [List.get?_eq_get (by omega : N - 1 < nids.length)]
    rw [List.getD_eq_get _ _ (by omega : N - 1 < nids.length)]
  · rw [hmapform]
    apply map_getD_sublist
    · rw [List.pairwise_cons]
      constructor
      · intro i hi
        rcases List.mem_append.mp hi with hi | hi
        · exact (hfin_mem i hi).1
        · rw [List.mem_singleton] at hi
          omega
      · rw [List.pairwise_append]
        refine ⟨hfin_pw, List.pairwise_singleton _ _, ?_⟩
        intro a ha b hb
        rw [List.mem_singleton] at hb
        have := hfin_mem a ha
        omega
    · intro i hi
      rcases List.mem_cons.mp hi with rfl | hi
      · omega
      · rcases List.mem_append.mp hi with hi | hi
        · have := hfin_mem i hi
          omega
        · rw [List.mem_singleton] at hi
          omega
  · have hbound := simplify_loop_length N t pick hpick (by omega) N (List.range' 1 (N - 2))
    rw [← hfin] at hbound
    have hrlen : (List.range' 1 (N - 2)).length = N - 2 := List.length_range' _ _ _
    rw [hrlen] at hbound
    have hceilN : (⌈t * (N : ℚ)⌉ : ℤ) ≤ (N : ℤ) := by
      rw [Int.ceil_le]
      push_cast
      have hN' : (0 : ℚ) ≤ (N : ℚ) := by positivity
      nlinarith
    have hlenout0 : (simplify_new_nids nids t pick).length = fin.length + 2 := by
      rw [hout, List.length_cons, List.length_append, List.length_map]
      rfl
    have hlenout : ((simplify_new_nids nids t pick).length : ℤ) = (fin.length : ℤ) + 2 := by
      rw [hlenout0]
      push_cast
      ring
    rw [hlenout]
    have h2 : ((N - 2 : ℕ) : ℤ) + 2 = (N : ℤ) := by omega
    rw [h2] at hbound
    omega

/-- Witness for claim C5 at a five-vertex way with the default threshold
1/2 and a head-picking heap oracle. -/
theorem claim_C5_witness :
    (simplify_new_nids [1, 2, 3, 4, 5] (1 / 2) (fun l => l.headD 0)).head? =
      ([1, 2, 3, 4, 5] : List Nat).head? ∧
    (simplify_new_nids [1, 2, 3, 4, 5] (1 / 2) (fun l => l.headD 0)).getLast? =
      ([1, 2, 3, 4, 5] : List Nat).getLast? ∧
    (simplify_new_nids [1, 2, 3, 4, 5] (1 / 2) (fun l => l.headD 0)).Sublist
      [1, 2, 3, 4, 5] ∧
    (⌈(1 / 2 : ℚ) * ((([1, 2, 3, 4, 5] : List Nat).length : ℕ) : ℚ)⌉ - 1 : ℤ) ≤
      ((simplify_new_nids [1, 2, 3, 4, 5] (1 / 2) (fun l => l.headD 0)).length : ℤ) :=
  claim_C5_simplify [1, 2, 3, 4, 5] (1 / 2) (fun l => l.headD 0)
    (by decide) (by norm_num)
    (fun l hl => by
      cases l with
      | nil => exact absurd rfl hl
      | cons a t => simp [List.headD])

/-! ## Parallel-pair detection (OSM.find_parallel_street_segments,
network.py lines 396-479): the angle condition, the buffer rectangles and
the shared-endpoint filter -/

/-- math.atan2(y, x) over the reals (the float bearing computation of
Node.angle_to). -/
noncomputable def atan2R (y x : ℝ) : ℝ :=
  if 0 < x then Real.arctan (y / x)
  else if x < 0 then
    (if 0 ≤ y then Real.arctan (y / x) + Real.pi else Real.arctan (y / x) - Real.pi)
  else
    (if 0 < y then Real.pi / 2 else if y < 0 then -(Real.pi / 2) else 0)

/-- math.degrees. -/
noncomputable def degreesR (r : ℝ) : ℝ := r * 180 / Real.pi

/-- math.degrees(a.angle_to(b)): nodes.py lines 26-29 read location() as
(y, x) = (lat, lng) and return atan2(y_b - y_a, x_b - x_a). -/
noncomputable def angle_to_deg (a b : Node) : ℝ :=
  degreesR (atan2R ((b.lat : ℝ) - (a.lat : ℝ)) ((b.lng : ℝ) - (a.lng : ℝ)))

/-- Python float modulo `a % m` for positive m: a - m * floor(a / m). -/
noncomputable def pymodR (a m : ℝ) : ℝ := a - m * ⌊a / m⌋

/-- The near-parallel angle test of network.py lines 437-438:
`angle_diff = ((a.angle - b.angle) + 360.) % 180.` is a parallel candidate
(together with the rectangle intersection) iff angle_diff < 10 or
angle_diff > 170. -/
def angle_diff_cond (a b : ℝ) : Prop :=
  pymodR (a - b + 360) 180 < 10 ∨ pymodR (a - b + 360) 180 > 170

/-- The buffered rectangle of network.py lines 407-420 for a way whose first
and last nodes sit at integral coordinates sp and ep (as (lat, lng)): offset
both endpoints by plus/minus the perpendicular of the normalized direction
vector scaled by distance_to_sidewalk = 0.00009, and take the polygon they
span.  np.linalg.norm-normalization is skipped exactly when the norm is 0
(nodes.py lines 79-83). -/
def buffer_poly (sp ep : ℤ × ℤ) : Set (ℝ × ℝ) :=
  let sv : ℝ × ℝ := ((sp.1 : ℝ), (sp.2 : ℝ))
  let ev : ℝ × ℝ := ((ep.1 : ℝ), (ep.2 : ℝ))
  let v : ℝ × ℝ := (ev.1 - sv.1, ev.2 - sv.2)
  let nrm : ℝ := Real.sqrt (v.1 ^ 2 + v.2 ^ 2)
  let u : ℝ × ℝ := if nrm = 0 then v else (v.1 / nrm, v.2 / nrm)
  let d : ℝ := 9 / 100000
  let perp : ℝ × ℝ := (u.2 * d, -u.1 * d)
  convexHull ℝ {(sv.1 + perp.1, sv.2 + perp.2), (ev.1 + perp.1, ev.2 + perp.2),
    (ev.1 - perp.1, ev.2 - perp.2), (sv.1 - perp.1, sv.2 - perp.2)}

/-- shapely's Polygon.intersects: the two point sets share at least one
point. -/
def polys_intersect (P Q : Set (ℝ × ℝ)) : Prop := (P ∩ Q).Nonempty

/-- The adjacent node picked next to the shared node s for the first way of
the pair (network.py lines 462-469): if s is at index 0 of both ways take
nids[1], otherwise take nids[-2].  The second way's adjacent node is
`adj_nid1 w2 w1 s` (its guard is the same condition with the conjuncts
swapped). -/
def adj_nid1 (w1 w2 : Way) (s : Nat) : Nat :=
  if w1.nids.indexOf s = 0 ∧ w2.nids.indexOf s = 0 then w1.nids.getD 1 0
  else w1.nids.getD (w1.nids.length - 2) 0

/-- The shared-endpoint filter of network.py lines 450-478: when the two
ways share a node (the code picks `list(shared_nids)[0]`, an arbitrary but
content-determined element of the set intersection, modelled as the minimum),
compute the bearing from the shared node to each way's adjacent node and
discard the pair iff abs(abs(angle1) - abs(angle2)) > 90.  `angleTo s n`
stands for math.degrees(shared_node.angle_to(adjacent_node)) after the node
lookups of lines 456-472. -/
def shared_touch_discard (w1 w2 : Way) (angleTo : Nat → Nat → ℝ) : Prop :=
  ∃ s : Nat, (w1.nids.toFinset ∩ w2.nids.toFinset).min = (s : WithTop Nat) ∧
    90 < |(|angleTo s (adj_nid1 w1 w2 s)|) - (|angleTo s (adj_nid1 w2 w1 s)|)|

theorem pymodR_eq_fract (a m : ℝ) (hm : m ≠ 0) :
    pymodR a m = m * Int.fract (a / m) := by
  rw [pymodR, Int.fract]
  field_simp

theorem angle_diff_cond_fract (a b : ℝ) :
    angle_diff_cond a b ↔
      (180 * Int.fract ((a - b) / 180) < 10 ∨ 180 * Int.fract ((a - b) / 180) > 170) := by
  have h1 : pymodR (a - b + 360) 180 = 180 * Int.fract ((a - b) / 180) := by
    rw [pymodR_eq_fract _ _ (by norm_num)]
    congr 1
    have h2 : (a - b + 360) / 180 = (a - b) / 180 + ((2 : ℤ) : ℝ) := by
      push_cast
      ring
    rw [h2, Int.fract_add_int]
  rw [angle_diff_cond, h1]

/-- Claim C9, part 2 in isolation: the angle-difference candidate condition
is symmetric in the two ways. -/
theorem angle_diff_cond_symm (a b : ℝ) : angle_diff_cond a b ↔ angle_diff_cond b a := by
  rw [angle_diff_cond_fract, angle_diff_cond_fract]
  set f := Int.fract ((a - b) / 180) with hf
  have hneg : (b - a) / 180 = -((a - b) / 180) := by ring
  by_cases h0 : f = 0
  · have h0' : Int.fract ((b - a) / 180) = 0 := by
      rw [hneg, Int.fract_neg_eq_zero, ← hf, h0]
    rw [h0', h0]
  · have h0' : Int.fract ((b - a) / 180) = 1 - f := by
      rw [hneg, Int.fract_neg (by rw [← hf]; exact h0)]
    rw [h0']
    have hlo : 0 ≤ f := Int.fract_nonneg _
    have hhi : f < 1 := Int.fract_lt_one _
    constructor
    · rintro (h | h)
      · right
        linarith
      · left
        linarith
    · rintro (h | h)
      · right
        linarith
      · left
        linarith

/-- Claim C9: each of the three tests of the parallel detector — the buffer
rectangle intersection, the mod-180 angle condition, and the shared-endpoint
bearing filter — is symmetric in the order of the two ways. -/
theorem claim_C9_symmetry :
    (∀ s1 e1 s2 e2 : ℤ × ℤ,
      polys_intersect (buffer_poly s1 e1) (buffer_poly s2 e2) ↔
      polys_intersect (buffer_poly s2 e2) (buffer_poly s1 e1)) ∧
    (∀ a b : ℝ, angle_diff_cond a b ↔ angle_diff_cond b a) ∧
    (∀ (w1 w2 : Way) (angleTo : Nat → Nat → ℝ),
      shared_touch_discard w1 w2 angleTo ↔ shared_touch_discard w2 w1 angleTo) := by
  refine ⟨?_, angle_diff_cond_symm, ?_⟩
  · intro s1 e1 s2 e2
    unfold polys_intersect
    rw [Set.inter_comm]
  · intro w1 w2 angleTo
    unfold shared_touch_discard
    constructor
    · rintro ⟨s, hs, hg⟩
      refine ⟨s, ?_, ?_⟩
      · rw [Finset.inter_comm]
        exact hs
      · rw [abs_sub_comm]
        exact hg
    · rintro ⟨s, hs, hg⟩
      refine ⟨s, ?_, ?_⟩
      · rw [Finset.inter_comm]
        exact hs
      · rw [abs_sub_comm]
        exact hg

/-- Concrete nodes exercising the shared-endpoint filter: node 1 at the
origin, node 2 one unit north-east of it (bearing 45 degrees), node 3 one
unit south of it (bearing -90 degrees). -/
def c6Node1 : Node := ⟨1, 0, 0, [10, 20], 2⟩

def c6Node2 : Node := ⟨2, 1, 1, [10], 2⟩

def c6Node3 : Node := ⟨3, -1, 0, [20], 2⟩

/-- The bearing function the detector computes on those nodes. -/
noncomputable def c6Angle : Nat → Nat → ℝ := fun a b =>
  angle_to_deg (if a = 1 then c6Node1 else if a = 2 then c6Node2 else c6Node3)
    (if b = 1 then c6Node1 else if b = 2 then c6Node2 else c6Node3)

theorem c6Angle_12 : c6Angle 1 2 = 45 := by
  show angle_to_deg c6Node1 c6Node2 = 45
  simp only [angle_to_deg, c6Node1, c6Node2, atan2R, degreesR]
  norm_num
  field_simp
  ring

theorem c6Angle_13 : c6Angle 1 3 = -90 := by
  show angle_to_deg c6Node1 c6Node3 = -90
  simp only [angle_to_deg, c6Node1, c6Node3, atan2R, degreesR]
  norm_num
  field_simp
  ring

/-- Claim C6 (counterexample): the filter does NOT discard exactly when the
absolute difference of the two bearings exceeds 90 degrees.  With bearings
45 and -90 the absolute difference is 135 > 90, but the code (network.py
line 475) compares abs(abs(45) - abs(-90)) = 45 and keeps the pair. -/
theorem claim_C6_counterexample :
    ¬ (shared_touch_discard ⟨10, [1, 2], none⟩ ⟨20, [1, 3], none⟩ c6Angle ↔
      90 < |c6Angle 1 2 - c6Angle 1 3|) := by
  intro h
  have hRHS : (90 : ℝ) < |c6Angle 1 2 - c6Angle 1 3| := by
    rw [c6Angle_12, c6Angle_13]
    rw [show (45 : ℝ) - (-90) = 135 by norm_num]
    rw [abs_of_nonneg (by norm_num : (0 : ℝ) ≤ 135)]
    norm_num
  obtain ⟨s, hs, hgap⟩ := h.mpr hRHS
  have hmin : ((⟨10, [1, 2], none⟩ : Way).nids.toFinset ∩
      (⟨20, [1, 3], none⟩ : Way).nids.toFinset).min = ((1 : Nat) : WithTop Nat) := by
    decide
  rw [hmin] at hs
  have hs1 : s = 1 := by exact_mod_cast hs.symm
  subst hs1
  rw [show adj_nid1 (⟨10, [1, 2], none⟩ : Way) (⟨20, [1, 3], none⟩ : Way) 1 = 2 from
      by decide,
    show adj_nid1 (⟨20, [1, 3], none⟩ : Way) (⟨10, [1, 2], none⟩ : Way) 1 = 3 from
      by decide,
    c6Angle_12, c6Angle_13] at hgap
  have e1 : |(45 : ℝ)| = 45 := abs_of_nonneg (by norm_num)
  have e2 : |(-90 : ℝ)| = 90 := by
    rw [abs_neg]
    exact abs_of_nonneg (by norm_num)
  rw [e1, e2, show (45 : ℝ) - 90 = -45 by norm_num, abs_neg,
    abs_of_nonneg (by norm_num : (0 : ℝ) ≤ 45)] at hgap
  norm_num at hgap

/-- Claim C6 (amended): for a candidate pair sharing an endpoint node, the
detector discards the pair iff the absolute difference of the ABSOLUTE
VALUES of the two bearings exceeds 90 degrees (network.py line 475 computes
abs(abs(angle1) - abs(angle2)), not abs(angle1 - angle2)). -/
theorem claim_C6_amended (w1 w2 : Way) (angleTo : Nat → Nat → ℝ) (s : Nat)
    (hs : (w1.nids.toFinset ∩ w2.nids.toFinset).min = (s : WithTop Nat)) :
    shared_touch_discard w1 w2 angleTo ↔
      90 < |(|angleTo s (adj_nid1 w1 w2 s)|) - (|angleTo s (adj_nid1 w2 w1 s)|)| := by
  constructor
  · rintro ⟨s', hs', hgap⟩
    rw [hs] at hs'
    have hse : s = s' := by exact_mod_cast hs'
    rw [hse]
    exact hgap
  · intro hgap
    exact ⟨s, hs, hgap⟩

/-- Witness for claim C6 (amended) on the concrete pair sharing node 1. -/
theorem claim_C6_witness :
    shared_touch_discard ⟨10, [1, 2], none⟩ ⟨20, [1, 3], none⟩ c6Angle ↔
      90 < |(|c6Angle 1 (adj_nid1 ⟨10, [1, 2], none⟩ ⟨20, [1, 3], none⟩ 1)|) -
        (|c6Angle 1 (adj_nid1 ⟨20, [1, 3], none⟩ ⟨10, [1, 2], none⟩ 1)|)| :=
  claim_C6_amended ⟨10, [1, 2], none⟩ ⟨20, [1, 3], none⟩ c6Angle 1 (by decide)

/-! ## Overlap segmentation and the empty-overlap skip
(OSM.segment_parallel_streets, network.py lines 481-578, and the skip branch
of OSM.merge_parallel_street_segments, lines 592-600) -/

/-- node.vector() = np.array(node.location()) = (lat, lng) (nodes.py 76-77). -/
def node_vec (n : Node) : ℤ × ℤ := (n.lat, n.lng)

/-- np.dot on 2-vectors. -/
def dotV (a b : ℤ × ℤ) : ℤ := a.1 * b.1 + a.2 * b.2

/-- Vector difference (Node.vector_to, nodes.py 79-83; the normalization is
dropped, see proj_lt). -/
def subV (a b : ℤ × ℤ) : ℤ × ℤ := (a.1 - b.1, a.2 - b.2)

/-- cmp_with_projection (network.py 494-502) as a strict comparator.
Comparing dot products with the normalized base vector orders nodes exactly
as comparing with the unnormalized one (the norm is a positive scalar, and
when it is zero Python skips the division), so the model drops the
normalization and stays exact over ℤ. -/
def proj_lt (baseV : ℤ × ℤ) (n1 n2 : Node) : Bool :=
  decide (dotV (node_vec n1) baseV < dotV (node_vec n2) baseV)

/-- Stable insertion into an already-sorted list: x goes before the first
element not strictly below it. -/
def insert_stable {α : Type} (lt : α → α → Bool) (x : α) : List α → List α
  | [] => [x]
  | y :: ys => if lt y x then y :: insert_stable lt x ys else x :: y :: ys

/-- Stable sort, modelling Python's stable sorted(..., cmp=...). -/
def sort_stable {α : Type} (lt : α → α → Bool) : List α → List α
  | [] => []
  | x :: xs => insert_stable lt x (sort_stable lt xs)

/-- The orientation-normalization step of segment_parallel_streets
(network.py lines 505-508): fetch street 2's nodes, sort them by projection
onto the base vector, and reverse street 2's node sequence in place if its
first node is not first in projection order. -/
def orient_street2 (g : Network) (baseV : ℤ × ℤ) (w2 : Way) : Option Way := do
  let s2nodes ← w2.nids.mapM (fun nid => alist_get nid g.nodes)
  let sorted2 := sort_stable (proj_lt baseV) s2nodes
  let h2 ← s2nodes.head?
  let hs2 ← sorted2.head?
  pure (if h2.id ≠ hs2.id then { w2 with nids := w2.nids.reverse } else w2)

/-- The remainder of segment_parallel_streets (network.py lines 510-578)
given the already-oriented street 2: pool and projection-sort all nodes,
locate the first and last street-alternation positions, slice the overlap
`all_nids[begin_idx:end_idx]` and the three-way segmentations of both
streets, and extend the flank segments by their boundary nodes.  Every
Python list access that can raise IndexError / ValueError binds through
Option. -/
def segment_rest (g : Network) (baseV : ℤ × ℤ) (w1 w2 : Way) :
    Option (List Nat × (List Nat × List Nat × List Nat) ×
      (List Nat × List Nat × List Nat)) := do
  let s1nodes ← w1.nids.mapM (fun nid => alist_get nid g.nodes)
  let s2nodes ← w2.nids.mapM (fun nid => alist_get nid g.nodes)
  let allNodes := sort_stable (proj_lt baseV) (s1nodes ++ s2nodes)
  let allNids := allNodes.map Node.id
  let indices := allNids.map (fun nid => if w1.nids.contains nid then (0 : Nat) else 1)
  let switch := (indices.zip indices.tail).map (fun pr => decide (pr.1 ≠ pr.2))
  let beginIdx ← switch.findIdx? (fun b => b)
  let revIdx ← switch.reverse.findIdx? (fun b => b)
  let endIdx := switch.length - 1 - revIdx
  let overlapping := (allNids.drop beginIdx).take (endIdx - beginIdx)
  let beginNid ← allNids.get? beginIdx
  let beginNid2 ← allNids.get? (beginIdx + 1)
  let s1b := if w1.nids.contains beginNid then beginNid else beginNid2
  let s2b := if w1.nids.contains beginNid then beginNid2 else beginNid
  let s1bIdx := w1.nids.indexOf s1b
  let s2bIdx := w2.nids.indexOf s2b
  let endNid ← allNids.get? endIdx
  let endNid2 ← allNids.get? (endIdx + 1)
  let s1e := if w1.nids.contains endNid then endNid else endNid2
  let s2e := if w1.nids.contains endNid then endNid2 else endNid
  let s1eIdx := w1.nids.indexOf s1e
  let s2eIdx := w2.nids.indexOf s2e
  let seg10 := w1.nids.take s1bIdx
  let seg11 := (w1.nids.drop s1bIdx).take (s1eIdx + 1 - s1bIdx)
  let seg12 := w1.nids.drop (s1eIdx + 1)
  let seg20 := w2.nids.take s2bIdx
  let seg21 := (w2.nids.drop s2bIdx).take (s2eIdx + 1 - s2bIdx)
  let seg22 := w2.nids.drop (s2eIdx + 1)
  let seg10x ← if seg10 ≠ [] then do
      let x ← seg11.head?
      pure (seg10 ++ [x])
    else pure seg10
  let seg12x ← if seg12 ≠ [] then do
      let x ← seg11.getLast?
      pure (x :: seg12)
    else pure seg12
  let seg20x ← if seg20 ≠ [] then
      (if seg21 ≠ [] then do
        let x ← seg21.head?
        pure (seg20 ++ [x])
      else if seg22 ≠ [] then do
        let x ← seg22.head?
        pure (seg20 ++ [x])
      else pure seg20)
    else pure seg20
  let seg22x ← if seg22 ≠ [] then
      (if seg21 ≠ [] then do
        let x ← seg21.getLast?
        pure (x :: seg22)
      else if seg20x ≠ [] then do
        let x ← seg20x.getLast?
        pure (x :: seg22)
      else pure seg22)
    else pure seg22
  pure (overlapping, (seg10x, seg11, seg12x), (seg20x, seg21, seg22x))

/-- OSM.segment_parallel_streets (network.py 481-578): base vector from
street 1's endpoints, orient street 2 (the reversal mutates the stored
street object), then compute overlap and segmentations.  The fourth result
component is the possibly-reversed street 2. -/
def segment_parallel_streets (g : Network) (w1 w2 : Way) :
    Option (List Nat × (List Nat × List Nat × List Nat) ×
      (List Nat × List Nat × List Nat) × Way) := do
  let n0id ← w1.nids.head?
  let nLid ← w1.nids.getLast?
  let base0 ← alist_get n0id g.nodes
  let base1 ← alist_get nLid g.nodes
  let baseV := subV (node_vec base1) (node_vec base0)
  let w2x ← orient_street2 g baseV w2
  let r ← segment_rest g baseV w1 w2x
  pure (r.1, r.2.1, r.2.2, w2x)

/-- One iteration of the merge loop of merge_parallel_street_segments
restricted to the empty-overlap skip path (network.py lines 592-600): look
both ways up, run segment_parallel_streets (whose in-place street 2 reversal
is visible in the stored graph), and `continue` when the overlap is empty.
The non-skip branch performs the actual merge, which is outside this claim:
it is marked `none` here and no theorem is stated about it. -/
def merge_pair_skip_step (g : Network) (wid1 wid2 : Nat) : Option Network := do
  let w1 ← alist_get wid1 g.ways
  let w2 ← alist_get wid2 g.ways
  let r ← segment_parallel_streets g w1 w2
  let g' : Network := { g with ways := alist_set wid2 r.2.2.2 g.ways }
  if r.1 = [] then pure g' else none

/-- Two parallel-ish ways with no genuine overlap: way 10 = [1,2] to the
west of way 20 = [3,4], with street 2's nodes stored in descending
projection order so the orientation step reverses them. -/
def c7Demo : Network :=
  { nodes := [
      (1, ⟨1, 0, 0, [10], 2⟩), (2, ⟨2, 0, 1, [10], 2⟩),
      (3, ⟨3, 0, 3, [20], 2⟩), (4, ⟨4, 0, 2, [20], 2⟩)],
    ways := [(10, ⟨10, [1, 2], none⟩), (20, ⟨20, [3, 4], none⟩)] }

theorem orient_street2_cases {g : Network} {baseV : ℤ × ℤ} {w2 w2x : Way}
    (h : orient_street2 g baseV w2 = some w2x) :
    w2x = w2 ∨ w2x = { w2 with nids := w2.nids.reverse } := by
  unfold orient_street2 at h
  simp only [Option.bind_eq_bind] at h
  rw [Option.bind_eq_some] at h
  obtain ⟨s2nodes, hs2nodes, h⟩ := h
  rw [Option.bind_eq_some] at h
  obtain ⟨h2, hh2, h⟩ := h
  rw [Option.bind_eq_some] at h
  obtain ⟨hs2, hhs2, h⟩ := h
  simp only [Option.pure_def, Option.some.injEq] at h
  by_cases hcond : h2.id ≠ hs2.id
  · right
    rw [← h, if_pos hcond]
  · left
    rw [← h, if_neg hcond]

theorem segment_parallel_streets_fourth {g : Network} {w1 w2 : Way}
    {r : List Nat × (List Nat × List Nat × List Nat) ×
      (List Nat × List Nat × List Nat) × Way}
    (h : segment_parallel_streets g w1 w2 = some r) :
    r.2.2.2 = w2 ∨ r.2.2.2 = { w2 with nids := w2.nids.reverse } := by
  unfold segment_parallel_streets at h
  simp only [Option.bind_eq_bind] at h
  rw [Option.bind_eq_some] at h
  obtain ⟨n0, h0, h⟩ := h
  rw [Option.bind_eq_some] at h
  obtain ⟨nL, hL, h⟩ := h
  rw [Option.bind_eq_some] at h
  obtain ⟨b0, hb0, h⟩ := h
  rw [Option.bind_eq_some] at h
  obtain ⟨b1, hb1, h⟩ := h
  rw [Option.bind_eq_some] at h
  obtain ⟨w2x, hw2x, h⟩ := h
  rw [Option.bind_eq_some] at h
  obtain ⟨rr, hrr, h⟩ := h
  simp only [Option.pure_def, Option.some.injEq] at h
  have hr4 : r.2.2.2 = w2x := by
    rw [← h]
  rw [hr4]
  exact orient_street2_cases hw2x

/-- Claim C7 (amended): whenever the merge step takes the empty-overlap skip
path, no node is touched and no way is added or removed; the only possible
mutation is that street 2's node sequence may have been reversed by the
orientation-normalization step of segment_parallel_streets (network.py
lines 505-508), which runs before the skip test. -/
theorem claim_C7_skip (g : Network) (wid1 wid2 : Nat) (g' : Network)
    (h : merge_pair_skip_step g wid1 wid2 = some g') :
    g'.nodes = g.nodes ∧
    (∀ k, k ≠ wid2 → alist_get k g'.ways = alist_get k g.ways) ∧
    (∃ w2, alist_get wid2 g.ways = some w2 ∧
      (alist_get wid2 g'.ways = some w2 ∨
       alist_get wid2 g'.ways = some { w2 with nids := w2.nids.reverse })) := by
  unfold merge_pair_skip_step at h
  simp only [Option.bind_eq_bind] at h
  rw [Option.bind_eq_some] at h
  obtain ⟨w1, hw1, h⟩ := h
  rw [Option.bind_eq_some] at h
  obtain ⟨w2, hw2, h⟩ := h
  rw [Option.bind_eq_some] at h
  obtain ⟨r, hr, hif⟩ := h
  by_cases hov : r.1 = []
  · rw [if_pos hov] at hif
    have hg' : g' = { g with ways := alist_set wid2 r.2.2.2 g.ways } := by
      simp only [Option.pure_def, Option.some.injEq] at hif
      exact hif.symm
    subst hg'
    refine ⟨rfl, ?_, ?_⟩
    · intro k hk
      exact alist_get_set_ne _ _ hk
    · refine ⟨w2, hw2, ?_⟩
      have hget : alist_get wid2 (alist_set wid2 r.2.2.2 g.ways) = some r.2.2.2 :=
        alist_get_set_self _ _ _
      rcases segment_parallel_streets_fourth hr with hc | hc
      · left
        rw [hget, hc]
      · right
        rw [hget, hc]
  · rw [if_neg hov] at hif
    exact absurd hif (by simp)

/-- Claim C7 (counterexample): the empty-overlap skip is NOT a no-op on the
two ways' node sequences.  On c7Demo the merge step for pair (10, 20) takes
the skip path, yet way 20's stored node sequence has been reversed from
[3,4] to [4,3]. -/
theorem claim_C7_counterexample :
    option_holds (fun g' =>
      alist_get 20 g'.ways = some ⟨20, [4, 3], none⟩ ∧
      alist_get 20 c7Demo.ways = some ⟨20, [3, 4], none⟩ ∧
      g'.nodes = c7Demo.nodes)
      (merge_pair_skip_step c7Demo 10 20) := by
  decide

/-- The graph c7Demo after the skip step: way 20 reversed, nothing else
changed. -/
def c7DemoAfter : Network :=
  { nodes := c7Demo.nodes,
    ways := [(10, ⟨10, [1, 2], none⟩), (20, ⟨20, [4, 3], none⟩)] }

/-- Witness for claim C7 (amended) at the concrete skip instance. -/
theorem claim_C7_witness :
    c7DemoAfter.nodes = c7Demo.nodes ∧
    (∀ k, k ≠ 20 → alist_get k c7DemoAfter.ways = alist_get k c7Demo.ways) ∧
    (∃ w2, alist_get 20 c7Demo.ways = some w2 ∧
      (alist_get 20 c7DemoAfter.ways = some w2 ∨
       alist_get 20 c7DemoAfter.ways = some { w2 with nids := w2.nids.reverse })) :=
  claim_C7_skip c7Demo 10 20 c7DemoAfter (by decide)

end ToSidewalk
